import Mathlib

/-!
# Hypermind self-updater (`src/core/updater.js`)

A shallow embedding of the `Updater` class: version comparison, the update
check, the redirect-following download, the recursive copy and the update
pipeline, together with the properties of the specification that concern them.

JavaScript strings are lists of characters, JavaScript numbers are IEEE-754
doubles represented exactly as dyadic rationals, and the file system is a
finite map from paths to entries.
-/

namespace Updater

/-! ## JavaScript numbers -/

/-- A JavaScript number. A finite double is the dyadic rational
`num / 2 ^ scale`, kept in lowest terms; the two zeros are not distinguished
(no operation of the updater tells them apart). -/
inductive JSNum where
  | nan
  | negInf
  | posInf
  | fin (num : Int) (scale : Nat)
  deriving DecidableEq, Repr

/-- The `<` of JavaScript on two numbers: false as soon as one side is `NaN`. -/
def JSNum.lt : JSNum → JSNum → Bool
  | .nan, _ => false
  | _, .nan => false
  | .negInf, .negInf => false
  | .negInf, _ => true
  | _, .negInf => false
  | .posInf, _ => false
  | _, .posInf => true
  | .fin a i, .fin b j => decide (a * ((1 <<< j : Nat) : Int) < b * ((1 <<< i : Nat) : Int))

/-- An array element read by index: `none` is `undefined` (index out of range). -/
abbrev JSElem := Option JSNum

/-- The `ToNumber` conversion applied by a relational operator: `undefined` becomes `NaN`. -/
def toNumber : JSElem → JSNum
  | none => .nan
  | some x => x

/-- The expression `x < y` on array elements. -/
def jsLess (x y : JSElem) : Bool := (toNumber x).lt (toNumber y)

/-- The expression `x > y` on array elements. -/
def jsGreater (x y : JSElem) : Bool := (toNumber y).lt (toNumber x)

/-- Lowest terms of `m / 2 ^ k`. -/
def normDyadic : Nat → Nat → Nat × Nat
  | m, 0 => (m, 0)
  | m, k + 1 => if m % 2 = 0 then normDyadic (m / 2) k else (m, k + 1)

/-- Number of binary digits of `n`, counted in at most `fuel` halvings. -/
def bitLength : Nat → Nat → Nat
  | 0, _ => 0
  | fuel + 1, n => if n = 0 then 0 else bitLength fuel (n / 2) + 1

/-- The integer `⌊log₂ n⌋` of a positive integer (`0` at `0`). -/
def log2Floor (n : Nat) : Nat := bitLength n n - 1

/-- The binary exponent `⌊log₂ (p / q)⌋` of a positive rational. -/
def binaryExponent (p q : Nat) : Int :=
  let lp := log2Floor p
  let lq := log2Floor q
  if lq ≤ lp then
    if q <<< (lp - lq) ≤ p then ((lp - lq : Nat) : Int) else ((lp - lq : Nat) : Int) - 1
  else
    if q ≤ p <<< (lq - lp) then -((lq - lp : Nat) : Int) else -((lq - lp : Nat) : Int) - 1

/-- Round a non-negative integer quotient `n / d` to the nearest integer, ties to even. -/
def roundHalfEven (n d : Nat) : Nat :=
  let m := n / d
  let r := n % d
  if d < 2 * r then m + 1
  else if 2 * r = d then (if m % 2 = 0 then m else m + 1)
  else m

/-- The double nearest to the non-negative rational `p / q` (`q > 0`), ties to
even: 53 significant bits, least exponent `-1074`, overflow to `Infinity` from
`2 ^ 1024`. -/
def roundToDouble (p q : Nat) : JSNum :=
  if p = 0 then .fin 0 0
  else
    let u : Int := max (binaryExponent p q - 52) (-1074)
    if 0 ≤ u then
      let m := roundHalfEven p (q <<< u.toNat)
      if 1 <<< 1024 ≤ m <<< u.toNat then .posInf else .fin (m <<< u.toNat : Nat) 0
    else
      let m := roundHalfEven (p <<< (-u).toNat) q
      let r := normDyadic m (-u).toNat
      .fin (r.1 : Nat) r.2

/-- Unary minus. -/
def JSNum.neg : JSNum → JSNum
  | .nan => .nan
  | .negInf => .posInf
  | .posInf => .negInf
  | .fin a i => .fin (-a) i

/-! ## `Number(string)` -/

/-- The characters `StrWhiteSpaceChar` of ECMAScript: white space and line terminators. -/
def isStrWhiteSpace (c : Char) : Bool :=
  let n := c.toNat
  n = 0x09 || n = 0x0A || n = 0x0B || n = 0x0C || n = 0x0D || n = 0x20 || n = 0xA0
    || n = 0x1680 || (0x2000 ≤ n && n ≤ 0x200A) || n = 0x2028 || n = 0x2029
    || n = 0x202F || n = 0x205F || n = 0x3000 || n = 0xFEFF

/-- Strip `StrWhiteSpace` from both ends. -/
def trimWhiteSpace (s : List Char) : List Char :=
  ((s.dropWhile isStrWhiteSpace).reverse.dropWhile isStrWhiteSpace).reverse

/-- Value of one digit character in a radix up to 16 (`none` when it is not one). -/
def digitValue (radix : Nat) (c : Char) : Option Nat :=
  let n := c.toNat
  let v := if 48 ≤ n ∧ n ≤ 57 then some (n - 48)
    else if 97 ≤ n ∧ n ≤ 102 then some (n - 87)
    else if 65 ≤ n ∧ n ≤ 70 then some (n - 55)
    else none
  match v with
  | some d => if d < radix then some d else none
  | none => none

/-- Value of a digit sequence in the given radix, most significant digit first. -/
def digitsValue (radix : Nat) (s : List Char) : Nat :=
  s.foldl (fun acc c => radix * acc + (digitValue radix c).getD 0) 0

/-- A decimal digit. -/
def isDecDigit (c : Char) : Bool := (digitValue 10 c).isSome

/-- The optional `ExponentPart` of a decimal literal: `none` when the text is
not one, otherwise the exponent. -/
def parseExponent : List Char → Option Int
  | [] => some 0
  | e :: rest =>
    if e = 'e' ∨ e = 'E' then
      match rest with
      | '+' :: ds => if ds ≠ [] ∧ ds.all isDecDigit then some (digitsValue 10 ds) else none
      | '-' :: ds => if ds ≠ [] ∧ ds.all isDecDigit then some (-(digitsValue 10 ds : Int)) else none
      | ds => if ds ≠ [] ∧ ds.all isDecDigit then some (digitsValue 10 ds) else none
    else none

/-- The double with decimal digits `m` scaled by `10 ^ e`. -/
def scaleDecimal (m : Nat) (e : Int) : JSNum :=
  if 0 ≤ e then roundToDouble (m * 10 ^ e.toNat) 1 else roundToDouble m (10 ^ (-e).toNat)

/-- The grammar `StrUnsignedDecimalLiteral`: `Infinity`, or digits with an
optional fraction and an optional exponent. -/
def parseUnsignedDecimal (s : List Char) : JSNum :=
  if s = ['I', 'n', 'f', 'i', 'n', 'i', 't', 'y'] then .posInf
  else
    let ip := s.takeWhile isDecDigit
    let rest := s.dropWhile isDecDigit
    match rest with
    | '.' :: more =>
      let fp := more.takeWhile isDecDigit
      if ip = [] ∧ fp = [] then .nan
      else
        match parseExponent (more.dropWhile isDecDigit) with
        | some e => scaleDecimal (digitsValue 10 (ip ++ fp)) (e - fp.length)
        | none => .nan
    | _ =>
      if ip = [] then .nan
      else
        match parseExponent rest with
        | some e => scaleDecimal (digitsValue 10 ip) e
        | none => .nan

/-- The grammar `NonDecimalIntegerLiteral` after its two-character marker. -/
def parseRadix (radix : Nat) (ds : List Char) : JSNum :=
  if ds ≠ [] ∧ ds.all (fun c => (digitValue radix c).isSome) then
    roundToDouble (digitsValue radix ds) 1
  else .nan

/-- The grammar `StrNumericLiteral` on a trimmed, non-empty text. -/
def parseNumeric : List Char → JSNum
  | '0' :: 'x' :: ds => parseRadix 16 ds
  | '0' :: 'X' :: ds => parseRadix 16 ds
  | '0' :: 'o' :: ds => parseRadix 8 ds
  | '0' :: 'O' :: ds => parseRadix 8 ds
  | '0' :: 'b' :: ds => parseRadix 2 ds
  | '0' :: 'B' :: ds => parseRadix 2 ds
  | '+' :: ds => parseUnsignedDecimal ds
  | '-' :: ds => (parseUnsignedDecimal ds).neg
  | ds => parseUnsignedDecimal ds

/-- The function `Number` applied to a string (`StringToNumber`): white space
is trimmed, the empty text is `0`, text outside the numeric grammar is `NaN`. -/
def Number (s : List Char) : JSNum :=
  let t := trimWhiteSpace s
  if t = [] then .fin 0 0 else parseNumeric t

/-! ## `String.prototype.split('.')` -/

/-- Split at every `'.'`; the result is never empty. -/
def splitDots : List Char → List (List Char)
  | [] => [[]]
  | c :: cs =>
    if c = '.' then [] :: splitDots cs
    else
      match splitDots cs with
      | [] => [[c]]
      | h :: t => (c :: h) :: t

/-- The array `v.split('.').map(Number)`. -/
def versionParts (v : String) : List JSNum := (splitDots v.data).map Number

/-! ## `compareVersions` -/

/-- The loop of `compareVersions` from index `i`, with `n` iterations left. -/
def compareLoop (parts1 parts2 : List JSNum) : Nat → Nat → Int
  | _, 0 => 0
  | i, n + 1 =>
    if jsGreater parts1[i]? parts2[i]? then 1
    else if jsLess parts1[i]? parts2[i]? then -1
    else compareLoop parts1 parts2 (i + 1) n

/-- The method `compareVersions(v1, v2)`. -/
def compareVersions (v1 v2 : String) : Int :=
  compareLoop (versionParts v1) (versionParts v2) 0 3

/-! ## Specification-side notions for versions -/

/-- A component of a valid version string: a non-empty run of decimal digits. -/
def isVersionComponent (s : List Char) : Bool := !s.isEmpty && s.all isDecDigit

/-- The integer triple of a valid version string, as the specification reads
it: exactly three dot-separated non-negative decimal integers. -/
def parseTriple (v : String) : Option (Nat × Nat × Nat) :=
  match splitDots v.data with
  | [a, b, c] =>
    if isVersionComponent a && isVersionComponent b && isVersionComponent c then
      some (digitsValue 10 a, digitsValue 10 b, digitsValue 10 c)
    else none
  | _ => none

/-- Lexicographic comparison of two integer triples, as the specification
words it: `1` at the first component where the left is greater, `-1` at the
first where it is smaller, `0` when all three are equal. -/
def lexCompare (a b : Nat × Nat × Nat) : Int :=
  if a.1 > b.1 then 1 else if a.1 < b.1 then -1
  else if a.2.1 > b.2.1 then 1 else if a.2.1 < b.2.1 then -1
  else if a.2.2 > b.2.2 then 1 else if a.2.2 < b.2.2 then -1
  else 0

/-- The triple `a` is strictly lower than `b` in (major, minor, patch) order. -/
def tripleLess (a b : Nat × Nat × Nat) : Prop :=
  a.1 < b.1 ∨ (a.1 = b.1 ∧ (a.2.1 < b.2.1 ∨ (a.2.1 = b.2.1 ∧ a.2.2 < b.2.2)))

/-- The largest integer up to which every integer is a double: `2 ^ 53`. -/
def exactLimit : Nat := 9007199254740992

/-- Every component of the triple is at most `2 ^ 53`. -/
def exactTriple (a : Nat × Nat × Nat) : Prop :=
  a.1 ≤ exactLimit ∧ a.2.1 ≤ exactLimit ∧ a.2.2 ≤ exactLimit

instance (a b : Nat × Nat × Nat) : Decidable (tripleLess a b) := by
  unfold tripleLess; infer_instance

instance (a : Nat × Nat × Nat) : Decidable (exactTriple a) := by
  unfold exactTriple; infer_instance

/-- What position `i` decides, in the words of the behaviour description: a
position where either side has no component or a non-numeric one is skipped
(`none`); a position where both are numeric decides when they differ. -/
def decidedAt (parts1 parts2 : List JSNum) (i : Nat) : Option Int :=
  match parts1[i]?, parts2[i]? with
  | some a, some b =>
    if a = .nan ∨ b = .nan then none
    else if b.lt a then some 1
    else if a.lt b then some (-1)
    else none
  | _, _ => none

/-- The first decision among positions `0`, `1`, `2`, and `0` when there is none. -/
def firstDecided (parts1 parts2 : List JSNum) : Int :=
  match decidedAt parts1 parts2 0 with
  | some r => r
  | none =>
    match decidedAt parts1 parts2 1 with
    | some r => r
    | none =>
      match decidedAt parts1 parts2 2 with
      | some r => r
      | none => 0

/-! ## Errors and `check` -/

/-- Errors thrown by the operations of the model. -/
inductive Err where
  | enoent
  | eexist
  | eisdir
  | enotdir
  | typeError
  | httpStatus (code : Nat)
  | other (msg : String)
  deriving DecidableEq, Repr

/-- A parsed `package.json`: its `version` field when that field is a string. -/
structure Package where
  version : Option String
  deriving DecidableEq, Repr

/-- The object returned by `check`. -/
structure UpdateStatus where
  currentVersion : String
  latestVersion : String
  updateAvailable : Bool
  deriving DecidableEq, Repr

/-- The method `check()`, given the local `package.json` and the outcome of
`fetchJson(versionUrl)`. A fetch failure is logged and rethrown; calling
`split` on a version that is not a string throws a `TypeError`. -/
def check (currentPkg : Package) (fetched : Except Err Package) : Except Err UpdateStatus :=
  match fetched with
  | .error e => .error e
  | .ok remotePkg =>
    match remotePkg.version, currentPkg.version with
    | some latest, some current =>
      .ok { currentVersion := current, latestVersion := latest,
            updateAvailable := decide (compareVersions latest current > 0) }
    | _, _ => .error .typeError

/-! ## File system -/

/-- A path: its components from the root. -/
abbrev Path := List String

/-- What a path holds: a regular file with its contents, or a directory. -/
inductive Entry where
  | file (content : String)
  | dir
  deriving DecidableEq, Repr

/-- A file system: the finite list of the paths that exist, each with its
entry, in order of creation. The first binding of a path is the one in force. -/
abbrev FS := List (Path × Entry)

/-- The entry at a path, if the path exists. -/
def FS.get : FS → Path → Option Entry
  | [], _ => none
  | (q, e) :: rest, p => if q = p then some e else FS.get rest p

/-- Bind a path: in place when it exists, at the end otherwise. -/
def FS.set : FS → Path → Entry → FS
  | [], p, e => [(p, e)]
  | (q, x) :: rest, p, e => if q = p then (p, e) :: rest else (q, x) :: FS.set rest p e

/-- The path `q` relative to `p`, when `q` is `p` or lies below it. -/
def relativeTo : Path → Path → Option Path
  | [], q => some q
  | _ :: _, [] => none
  | a :: p, b :: q => if a = b then relativeTo p q else none

/-- Remove one path. -/
def FS.erase (fs : FS) (p : Path) : FS :=
  fs.filter (fun x => decide (x.1 ≠ p))

/-- Remove a path and everything below it. -/
def FS.removeTree (fs : FS) (p : Path) : FS :=
  fs.filter (fun x => (relativeTo p x.1).isNone)

/-- The order of `strcmp` on names: by code point, a proper initial part first. -/
def nameBefore : List Char → List Char → Bool
  | [], [] => false
  | [], _ :: _ => true
  | _ :: _, [] => false
  | a :: as, b :: bs =>
    if a.toNat < b.toNat then true
    else if b.toNat < a.toNat then false
    else nameBefore as bs

/-- Insert a name into a sorted list of names, unless it is there. -/
def insertName (n : String) : List String → List String
  | [] => [n]
  | m :: rest =>
    if nameBefore n.data m.data then n :: m :: rest
    else if n = m then m :: rest
    else m :: insertName n rest

/-- Sort names, each name once. -/
def sortNames : List String → List String
  | [] => []
  | n :: rest => insertName n (sortNames rest)

/-- The names of the direct children of `p`, sorted by name, as a directory
listing returns them. -/
def FS.childNames (fs : FS) (p : Path) : List String :=
  sortNames (fs.filterMap (fun x =>
    match relativeTo p x.1 with
    | some [n] => some n
    | _ => none))

/-- The parent of `p` exists and is a directory. -/
def FS.parentIsDir (fs : FS) (p : Path) : Bool :=
  !p.isEmpty && fs.get p.dropLast == some .dir

/-- The error of an operation whose parent directory is missing (`ENOENT`) or
is a regular file (`ENOTDIR`). -/
def FS.parentError (fs : FS) (p : Path) : Err :=
  match fs.get p.dropLast with
  | some (.file _) => .enotdir
  | _ => .enoent

/-- An injected I/O fault: the error, if any, with which writing at a path fails. -/
abbrev Fault := Path → Option Err

/-- How a synchronous operation ends: normally with a value, or by throwing;
either way with the file system it leaves. -/
inductive Outcome (α : Type) where
  | ok (value : α) (fs : FS)
  | thrown (error : Err) (fs : FS)
  deriving DecidableEq, Repr

/-- The file system an outcome leaves. -/
def Outcome.fs {α : Type} : Outcome α → FS
  | .ok _ fs => fs
  | .thrown _ fs => fs

/-- `fs.existsSync(p)`. -/
def existsSync (fs : FS) (p : Path) : Bool := (fs.get p).isSome

/-- `fs.statSync(p).isDirectory()` on an existing path. -/
def isDirectory (fs : FS) (p : Path) : Bool := fs.get p == some .dir

/-- `fs.statSync(p).isFile()`, false when the path does not exist. -/
def FS.isFile (fs : FS) (p : Path) : Bool :=
  match fs.get p with
  | some (.file _) => true
  | _ => false

/-- `fs.mkdirSync(p)`. -/
def mkdirSync (fault : Fault) (fs : FS) (p : Path) : Outcome Unit :=
  if existsSync fs p then .thrown .eexist fs
  else if !fs.parentIsDir p then .thrown (fs.parentError p) fs
  else
    match fault p with
    | some e => .thrown e fs
    | none => .ok () (fs.set p .dir)

/-- `fs.readdirSync(p)`. -/
def readdirSync (fs : FS) (p : Path) : Outcome (List String) :=
  match fs.get p with
  | some .dir => .ok (fs.childNames p) fs
  | some (.file _) => .thrown .enotdir fs
  | none => .thrown .enoent fs

/-- `fs.copyFileSync(src, dest)`: the destination file is created or overwritten. -/
def copyFileSync (fault : Fault) (fs : FS) (src dest : Path) : Outcome Unit :=
  match fs.get src with
  | none => .thrown .enoent fs
  | some .dir => .thrown .eisdir fs
  | some (.file c) =>
    if isDirectory fs dest then .thrown .eisdir fs
    else if !fs.parentIsDir dest then .thrown (fs.parentError dest) fs
    else
      match fault dest with
      | some e => .thrown e fs
      | none => .ok () (fs.set dest (.file c))

/-- `fs.unlinkSync(p)`. -/
def unlinkSync (fs : FS) (p : Path) : Outcome Unit :=
  match fs.get p with
  | some (.file _) => .ok () (fs.erase p)
  | some .dir => .thrown .eisdir fs
  | none => .thrown .enoent fs

/-- `fs.rmSync(p, { recursive: true, force: true })`: never throws. -/
def rmSync (fs : FS) (p : Path) : Outcome Unit := .ok () (fs.removeTree p)

/-! ## `downloadFile` -/

/-- What one call of `https.get` meets: a response (status code, `Location`
header if there is one, body); a transport error emitted on the request; or an
exception thrown by `https.get` itself on a URL it does not accept (a relative
one, for instance). -/
inductive Response where
  | status (code : Nat) (location : Option String) (body : String)
  | error (e : Err)
  | invalid (e : Err)
  deriving DecidableEq, Repr

/-- The behaviour of the remote side: what the `k`-th request of a download
meets, made with the given URL argument (`none` is `undefined`, the value of
a missing `Location` header). -/
abbrev Server := Nat → Option String → Response

/-- The timing of the asynchronous opens: whether the write stream created for
the `k`-th request has opened its file when the program next looks at the
destination, which is in the reaction to that request, or in the caller's
`catch` block when `https.get` threw. An open that has not happened by then
happens afterwards: before the reaction to the next request when the download
goes on, after the caller has handled the rejection when the download is
rejected. -/
abbrev Schedule := Nat → Bool

/-- The file system once the open of `fs.createWriteStream(dest)` has
happened: the file is created empty or truncated. `none` when the open fails
(the destination is a directory or has no parent directory): the stream then
emits an `error` event that nothing handles, which stops the process. The call
itself changes nothing: the open is asynchronous. -/
def createWriteStream (fs : FS) (dest : Path) : Option FS :=
  if isDirectory fs dest || !fs.parentIsDir dest then none
  else some (fs.set dest (.file ""))

/-- How the promise of `downloadFile` settles, and whether the open of a write
stream on the destination is still to happen at that moment. -/
structure Download where
  outcome : Outcome Unit
  openPending : Bool
  deriving DecidableEq, Repr

/-- The method `downloadFile(url, dest)` as the `k`-th request of a download,
following at most `fuel - 1` redirects. `none`: the promise is not settled
(within the fuel). An exception of `https.get` is thrown inside the promise
executor and rejects the promise at once, whether or not the stream can open
its file. A stream that cannot open its file stops the process before any
response or transport error is handled, so the promise is never settled. An
exception thrown inside the response callback escapes the promise, which is
then never settled: that is what `unlinkSync` does in the redirect and
bad-status reactions when the stream has not opened the file yet and no older
file is there. A response with status 200 is piped into the stream, which
writes it once open. -/
def downloadFile (server : Server) (opened : Schedule) :
    Nat → Nat → Option String → Path → FS → Option Download
  | 0, _, _, _, _ => none
  | fuel + 1, k, url, dest, fs =>
    match createWriteStream fs dest with
    | none =>
      match server k url with
      | .invalid e => some { outcome := .thrown e fs, openPending := false }
      | _ => none
    | some created =>
      let fs1 := if opened k then created else fs
      match server k url with
      | .invalid e => some { outcome := .thrown e fs1, openPending := !opened k }
      | .status code location body =>
        if code = 301 ∨ code = 302 then
          match unlinkSync fs1 dest with
          | .thrown _ _ => none
          | .ok _ fs2 =>
            downloadFile server opened fuel (k + 1) location dest
              (if opened k then fs2 else fs2.set dest (.file ""))
        else if code ≠ 200 then
          match unlinkSync fs1 dest with
          | .thrown _ _ => none
          | .ok _ fs2 =>
            some { outcome := .thrown (.httpStatus code) fs2, openPending := !opened k }
        else some { outcome := .ok () (created.set dest (.file body)), openPending := false }
      | .error e =>
        if existsSync fs1 dest then
          match unlinkSync fs1 dest with
          | .thrown _ _ => none
          | .ok _ fs2 => some { outcome := .thrown e fs2, openPending := !opened k }
        else some { outcome := .thrown e fs1, openPending := !opened k }

/-! ## `copyRecursiveSync` -/

/-- The loop `names.forEach(f)` over a file system, stopping at the first throw. -/
def forEachName (f : String → FS → Option (Outcome Unit)) :
    List String → FS → Option (Outcome Unit)
  | [], fs => some (.ok () fs)
  | n :: rest, fs =>
    match f n fs with
    | none => none
    | some (.thrown e fs1) => some (.thrown e fs1)
    | some (.ok _ fs1) => forEachName f rest fs1

/-- The method `copyRecursiveSync(src, dest)`, to a recursion depth of at most
`fuel` (`none` beyond it). -/
def copyRecursiveSync (fault : Fault) : Nat → Path → Path → FS → Option (Outcome Unit)
  | 0, _, _, _ => none
  | fuel + 1, src, dest, fs =>
    let srcExists := existsSync fs src
    if srcExists && isDirectory fs src then
      match (if !existsSync fs dest then mkdirSync fault fs dest else .ok () fs) with
      | .thrown e fs1 => some (.thrown e fs1)
      | .ok _ fs1 =>
        match readdirSync fs1 src with
        | .thrown e fs2 => some (.thrown e fs2)
        | .ok names fs2 =>
          forEachName
            (fun childItemName g =>
              copyRecursiveSync fault fuel (src ++ [childItemName]) (dest ++ [childItemName]) g)
            names fs2
    else some (copyFileSync fault fs src dest)

/-! ## Archive extraction (the `adm-zip` calls of `update`) -/

/-- The entries of a zip archive in archive order, each with its path inside
the archive. -/
abbrev Archive := List (Path × Entry)

/-- Create the directory `cur ++ names` and its missing ancestors below `cur`,
one component at a time; a file in the way is an error. -/
def makeDir (fault : Fault) : List String → Path → FS → Outcome Unit
  | [], _, fs => .ok () fs
  | n :: rest, cur, fs =>
    match fs.get (cur ++ [n]) with
    | some (.file _) => .thrown (.other "FILE_IN_THE_WAY") fs
    | some .dir => makeDir fault rest (cur ++ [n]) fs
    | none =>
      match mkdirSync fault fs (cur ++ [n]) with
      | .thrown e fs1 => .thrown e fs1
      | .ok _ fs1 => makeDir fault rest (cur ++ [n]) fs1

/-- The helper `writeFileTo(path, content, true)` of `adm-zip`: a path that is
an existing directory is left alone and nothing is reported; otherwise the
folder is created when it does not exist and the file is written over what is
there. -/
def writeFileTo (fault : Fault) (fs : FS) (p : Path) (content : String) : Outcome Unit :=
  if isDirectory fs p then .ok () fs
  else
    match (if !existsSync fs p.dropLast then makeDir fault p.dropLast [] fs
           else .ok () fs) with
    | .thrown e fs1 => .thrown e fs1
    | .ok _ fs1 =>
      if !fs1.parentIsDir p then .thrown (fs1.parentError p) fs1
      else
        match fault p with
        | some e => .thrown e fs1
        | none => .ok () (fs1.set p (.file content))

/-- The call `zip.extractAllTo(target, true)`: every entry in turn, directories
created with their ancestors, files written with `writeFileTo`. -/
def extractAllTo (fault : Fault) (target : Path) : Archive → FS → Outcome Unit
  | [], fs => .ok () fs
  | (rel, .dir) :: rest, fs =>
    match makeDir fault (target ++ rel) [] fs with
    | .thrown e fs1 => .thrown e fs1
    | .ok _ fs1 => extractAllTo fault target rest fs1
  | (rel, .file c) :: rest, fs =>
    match writeFileTo fault fs (target ++ rel) c with
    | .thrown e fs1 => .thrown e fs1
    | .ok _ fs1 => extractAllTo fault target rest fs1

/-! ## `execCommand` and `update` -/

/-- What `child_process.exec` hands to its callback. -/
structure ExecResult where
  error : Option Nat
  stdout : String
  stderr : String
  deriving DecidableEq, Repr

/-- The method `execCommand(command)`: the lines it logs with `console.warn`,
and how its promise settles. -/
def execCommand (r : ExecResult) : List String × Except Err String :=
  (if r.error.isSome then [r.stderr] else [], .ok r.stdout)

/-- The surroundings of an update: the application directory, the remote
side, the timing of the opens, how `adm-zip` reads the bytes of an archive,
and the injected faults. -/
structure Env where
  appDir : Path
  server : Server
  opened : Schedule
  readZip : String → Except Err Archive
  fault : Fault

/-- The field `updateUrl`. -/
def updateUrl : String := "https://github.com/lklynet/hypermind/archive/refs/heads/main.zip"

/-- The staging archive `path.join(appDir, 'update.zip')`. -/
def Env.tempZip (env : Env) : Path := env.appDir ++ ["update.zip"]

/-- The staging directory `path.join(appDir, 'temp_update')`. -/
def Env.tempDir (env : Env) : Path := env.appDir ++ ["temp_update"]

/-- The value `update` resolves with. -/
structure UpdateResult where
  success : Bool
  deriving DecidableEq, Repr

/-- Steps 1 to 4 of the `try` block of `update`: download, extract, move
files, clean up. The child process of step 5 is not part of the file-system
model. -/
def installStages (env : Env) (fuel : Nat) (fs : FS) : Option (Outcome Unit) :=
  match downloadFile env.server env.opened fuel 0 (some updateUrl) env.tempZip fs with
  | none => none
  | some d =>
    match d.outcome with
    | .thrown e fs1 => some (.thrown e fs1)
    | .ok _ fs1 =>
      match fs1.get env.tempZip with
      | some (.file bytes) =>
        match env.readZip bytes with
        | .error e => some (.thrown e fs1)
        | .ok zip =>
          match extractAllTo env.fault env.tempDir zip fs1 with
          | .thrown e fs2 => some (.thrown e fs2)
          | .ok _ fs2 =>
            match readdirSync fs2 env.tempDir with
            | .thrown e fs3 => some (.thrown e fs3)
            | .ok names fs3 =>
              match names[0]? with
              | none => some (.thrown .typeError fs3)
              | some extractedRoot =>
                match copyRecursiveSync env.fault fuel (env.tempDir ++ [extractedRoot])
                    env.appDir fs3 with
                | none => none
                | some (.thrown e fs4) => some (.thrown e fs4)
                | some (.ok _ fs4) =>
                  match unlinkSync fs4 env.tempZip with
                  | .thrown e fs5 => some (.thrown e fs5)
                  | .ok _ fs5 =>
                    match rmSync fs5 env.tempDir with
                    | .thrown e fs6 => some (.thrown e fs6)
                    | .ok _ fs6 => some (.ok () fs6)
      | some .dir => some (.thrown .eisdir fs1)
      | none => some (.thrown .enoent fs1)

/-- The `try` block of `update`: the stages, the dependency install, the result. -/
def updateTry (env : Env) (install : ExecResult) (fuel : Nat) (fs : FS) :
    Option (Outcome UpdateResult) :=
  match installStages env fuel fs with
  | none => none
  | some (.thrown e fs1) => some (.thrown e fs1)
  | some (.ok _ fs1) =>
    match (execCommand install).2 with
    | .error e => some (.thrown e fs1)
    | .ok _ => some (.ok { success := true } fs1)

/-- The `catch` block of `update`: remove the staging artifacts that exist, rethrow. -/
def cleanupOnFail (env : Env) (error : Err) (fs : FS) : Outcome UpdateResult :=
  match (if existsSync fs env.tempZip then unlinkSync fs env.tempZip else .ok () fs) with
  | .thrown e fs1 => .thrown e fs1
  | .ok _ fs1 =>
    match (if existsSync fs1 env.tempDir then rmSync fs1 env.tempDir else .ok () fs1) with
    | .thrown e fs2 => .thrown e fs2
    | .ok _ fs2 => .thrown error fs2

/-- Whether the download of `update` was rejected while the open of the
staging archive was still to happen. -/
def openPending (env : Env) (fuel : Nat) (fs : FS) : Bool :=
  match downloadFile env.server env.opened fuel 0 (some updateUrl) env.tempZip fs with
  | some d => d.openPending
  | none => false

/-- An open still to happen when the `catch` block ran happens after it: the
staging archive is created, empty. -/
def afterPendingOpen (env : Env) (pending : Bool) (out : Outcome UpdateResult) :
    Outcome UpdateResult :=
  if pending then
    match out with
    | .ok r fs => .ok r (fs.set env.tempZip (.file ""))
    | .thrown e fs => .thrown e (fs.set env.tempZip (.file ""))
  else out

/-- The method `update()`, `install` being what the dependency install
command ends with. `none`: the promise is not settled (within the fuel). The
file system of the outcome is the one left once a pending open has happened. -/
def update (env : Env) (install : ExecResult) (fuel : Nat) (fs : FS) :
    Option (Outcome UpdateResult) :=
  match updateTry env install fuel fs with
  | none => none
  | some (.ok r fs1) => some (.ok r fs1)
  | some (.thrown e fs1) =>
    some (afterPendingOpen env (openPending env fuel fs) (cleanupOnFail env e fs1))



/-! ## Specification-side notions for file trees -/

/-- Every path that exists, other than the root, has a directory as its parent. -/
def FS.wellFormed (fs : FS) : Bool :=
  fs.all (fun x => x.1.isEmpty || fs.get x.1.dropLast == some .dir)

/-- Two entries are not a file on one side and a directory on the other. -/
def kindsAgree : Option Entry → Option Entry → Bool
  | some (.file _), some .dir => false
  | some .dir, some (.file _) => false
  | _, _ => true

/-- No relative path is a file in the tree at `src` and a directory in the tree
at `dest`, or the reverse. -/
def treesAgree (fs : FS) (src dest : Path) : Bool :=
  fs.all (fun x =>
    match relativeTo src x.1 with
    | some r => kindsAgree (fs.get x.1) (fs.get (dest ++ r))
    | none => true)

/-- The two trees are apart: no path of the tree at `src`, taken relative to
`dest`, falls inside the tree at `src`. This holds when neither directory
contains the other, and also for a source inside the destination as long as
the source does not contain its own location relative to the destination. -/
def treesApart (fs : FS) (src dest : Path) : Bool :=
  fs.all (fun x =>
    match relativeTo src x.1 with
    | some r => (relativeTo src (dest ++ r)).isNone
    | none => true)

/-- A release tree and an application tree side by side. -/
def sideBySideFS : FS :=
  [([], .dir), (["release"], .dir), (["release", "a.js"], .file "new a"),
   (["release", "lib"], .dir), (["release", "lib", "b.js"], .file "b"),
   (["app"], .dir), (["app", "a.js"], .file "old a"), (["app", "stale.js"], .file "stale")]

/-! ## Concrete scenarios -/

/-- A remote side that answers every request with a redirect to the same URL. -/
def loopServer : Server := fun _ _ => .status 302 (some "https://host/loop") ""

/-- A remote side that redirects the first `n` requests and then serves `body`. -/
def chainServer (n : Nat) (body : String) : Server :=
  fun k _ => if k < n then .status 302 (some "https://host/next") "" else .status 200 none body

/-- A file system holding only the root and an application directory. -/
def bareFS : FS := [([], .dir), (["app"], .dir)]

/-- An archive with two top-level entries, listed `root` first. -/
def twoRootsZip : Archive :=
  [(["root"], .dir), (["root", "new.js"], .file "n"), (["docs"], .dir),
   (["docs", "readme.md"], .file "r")]

/-- Every write stream has opened its file when the program looks at it. -/
def promptOpens : Schedule := fun _ => true

/-- An update whose download is redirected once and whose archive is `zip`. -/
def scenarioEnv (zip : Archive) (fault : Fault) : Env :=
  { appDir := ["app"], server := chainServer 1 "zipbytes", opened := promptOpens,
    readZip := fun _ => .ok zip, fault := fault }

/-- A remote side that answers the first request with a redirect to the
relative URL `/next`, which `https.get` does not accept. -/
def relativeRedirectServer : Server :=
  fun k _ => if k = 0 then .status 302 (some "/next") "" else .invalid .typeError

/-- An update against `relativeRedirectServer` in which the second write stream
has not opened the staging archive when the `catch` block runs. -/
def lateOpenEnv : Env :=
  { appDir := ["app"], server := relativeRedirectServer, opened := fun k => decide (k = 0),
    readZip := fun _ => .ok [], fault := fun _ => none }

/-- An archive with the usual single release root. -/
def releaseZip : Archive :=
  [(["root"], .dir), (["root", "a.js"], .file "a1"), (["root", "lib", "b.js"], .file "b1")]

/-- A dependency install that ends with a non-zero exit status. -/
def failedInstall : ExecResult := { error := some 1, stdout := "", stderr := "npm ERR!" }

/-- The fault that makes writing one path fail. -/
def faultAt (p : Path) : Fault := fun q => if q = p then some (.other "EIO") else none

/-! ## Properties of `compareVersions` -/

theorem JSNum.lt_asymm (a b : JSNum) (h : a.lt b = true) : b.lt a = false := by
  cases a <;> cases b <;> simp_all [JSNum.lt]
  omega

theorem JSNum.lt_irrefl (a : JSNum) : a.lt a = false := by
  cases a <;> simp [JSNum.lt]

theorem jsGreater_eq_jsLess (x y : JSElem) : jsGreater x y = jsLess y x := rfl

theorem compareLoop_antisymm (p1 p2 : List JSNum) (n : Nat) :
    ∀ i, compareLoop p1 p2 i n = -compareLoop p2 p1 i n := by
  induction n with
  | zero => intro i; simp [compareLoop]
  | succ n ih =>
    intro i
    simp only [compareLoop, jsGreater_eq_jsLess]
    by_cases h1 : jsLess p2[i]? p1[i]? = true
    · have h2 : jsLess p1[i]? p2[i]? = false := JSNum.lt_asymm _ _ h1
      simp [h1, h2]
    · by_cases h2 : jsLess p1[i]? p2[i]? = true
      · simp [h1, h2]
      · simp [h1, h2, ih]

theorem compareLoop_self (p : List JSNum) (n : Nat) : ∀ i, compareLoop p p i n = 0 := by
  induction n with
  | zero => intro i; simp [compareLoop]
  | succ n ih =>
    intro i
    simp [compareLoop, jsGreater, jsLess, JSNum.lt_irrefl, ih]

/-- C1: `compareVersions(a, b) = -compareVersions(b, a)` and
`compareVersions(a, a) = 0`. This holds for all strings, in particular for
every pair of valid version strings. -/
theorem compareVersions_antisymm_and_refl (a b : String) :
    compareVersions a b = -compareVersions b a ∧ compareVersions a a = 0 :=
  ⟨compareLoop_antisymm _ _ 3 0, compareLoop_self _ 3 0⟩

/-! ## `Number` on version components -/

theorem bitLength_zero (fuel : Nat) : bitLength fuel 0 = 0 := by
  cases fuel <;> simp [bitLength]

theorem lt_two_pow_bitLength : ∀ fuel n, n ≤ fuel → n < 2 ^ bitLength fuel n := by
  intro fuel
  induction fuel with
  | zero => intro n h; simp [bitLength]; omega
  | succ fuel ih =>
    intro n h
    by_cases hn : n = 0
    · simp [bitLength, hn]
    · have h2 : n / 2 ≤ fuel := by omega
      have := ih (n / 2) h2
      simp only [bitLength, hn, if_false, pow_succ]
      omega

theorem two_pow_bitLength_le : ∀ fuel n, n ≠ 0 → n ≤ fuel →
    1 ≤ bitLength fuel n ∧ 2 ^ (bitLength fuel n - 1) ≤ n := by
  intro fuel
  induction fuel with
  | zero => intro n hn h; omega
  | succ fuel ih =>
    intro n hn h
    simp only [bitLength, hn, if_false]
    refine ⟨by omega, ?_⟩
    by_cases h0 : n / 2 = 0
    · simp [h0, bitLength_zero]; omega
    · have h2 : n / 2 ≤ fuel := by omega
      obtain ⟨hb, hp⟩ := ih (n / 2) h0 h2
      have : bitLength fuel (n / 2) + 1 - 1 = (bitLength fuel (n / 2) - 1) + 1 := by omega
      rw [this, pow_succ]
      omega

theorem log2Floor_spec (n : Nat) (hn : n ≠ 0) :
    2 ^ log2Floor n ≤ n ∧ n < 2 ^ (log2Floor n + 1) := by
  obtain ⟨hb, hp⟩ := two_pow_bitLength_le n n hn (le_refl n)
  have hlt := lt_two_pow_bitLength n n (le_refl n)
  unfold log2Floor
  have : bitLength n n - 1 + 1 = bitLength n n := by omega
  rw [this]
  exact ⟨hp, hlt⟩

theorem binaryExponent_one (n : Nat) (hn : n ≠ 0) :
    binaryExponent n 1 = (log2Floor n : Int) := by
  have h1 : log2Floor 1 = 0 := by decide
  have h2 := (log2Floor_spec n hn).1
  simp [binaryExponent, h1, Nat.shiftLeft_eq, h2]

theorem roundHalfEven_one (n : Nat) : roundHalfEven n 1 = n := by
  simp [roundHalfEven, Nat.mod_one]

theorem normDyadic_mul_pow (n : Nat) : ∀ k, normDyadic (n * 2 ^ k) k = (n, 0) := by
  intro k
  induction k with
  | zero => simp [normDyadic]
  | succ k ih =>
    have h1 : n * 2 ^ (k + 1) % 2 = 0 := by rw [pow_succ, ← Nat.mul_assoc]; simp
    have h2 : n * 2 ^ (k + 1) / 2 = n * 2 ^ k := by rw [pow_succ, ← Nat.mul_assoc]; simp
    simp [normDyadic, h1, h2, ih]

theorem roundToDouble_exact (n : Nat) (h : n ≤ exactLimit) :
    roundToDouble n 1 = .fin (n : Int) 0 := by
  by_cases hn : n = 0
  · simp [roundToDouble, hn]
  by_cases hmax : n = exactLimit
  · subst hmax; decide
  have hlt : n < 2 ^ 53 := by unfold exactLimit at h hmax; omega
  obtain ⟨hlo, hhi⟩ := log2Floor_spec n hn
  have hl : log2Floor n ≤ 52 := by
    by_contra hc
    have : 2 ^ 53 ≤ 2 ^ log2Floor n := Nat.pow_le_pow_right (by norm_num) (by omega)
    omega
  unfold roundToDouble
  simp only [hn, if_false, binaryExponent_one n hn]
  have hu : max ((log2Floor n : Int) - 52) (-1074) = (log2Floor n : Int) - 52 := by omega
  rw [hu]
  by_cases h52 : log2Floor n = 52
  · have hov : ¬ ((1 : Nat) <<< 1024 ≤ n) := by
      have hbig : exactLimit < (1 : Nat) <<< 1024 := by decide
      exact Nat.not_le.mpr (lt_of_le_of_lt h hbig)
    have e0 : ((52 : Nat) : Int) - 52 = 0 := by norm_num
    rw [h52, e0]
    simp only [le_refl, if_true, Int.toNat_zero, Nat.shiftLeft_zero, roundHalfEven_one, hov,
      if_false]
  · have hneg : ¬ (0 ≤ (log2Floor n : Int) - 52) := by omega
    have hk : (-((log2Floor n : Int) - 52)).toNat = 52 - log2Floor n := by omega
    simp only [hneg, if_false, hk, roundHalfEven_one, Nat.shiftLeft_eq, normDyadic_mul_pow]

theorem isDecDigit_iff (c : Char) : isDecDigit c = true ↔ 48 ≤ c.toNat ∧ c.toNat ≤ 57 := by
  simp only [isDecDigit, digitValue]
  split_ifs <;> simp <;> omega

theorem not_white_of_digit (c : Char) (h : isDecDigit c = true) : isStrWhiteSpace c = false := by
  rw [isDecDigit_iff] at h
  simp only [isStrWhiteSpace]
  simp
  omega

theorem dropWhile_eq_self {p : Char → Bool} : ∀ (l : List Char),
    (∀ c ∈ l.head?, p c = false) → l.dropWhile p = l := by
  intro l h
  cases l with
  | nil => rfl
  | cons c cs =>
    have : p c = false := h c (by simp)
    simp [List.dropWhile, this]

theorem trimWhiteSpace_digits (ds : List Char) (h : ∀ c ∈ ds, isDecDigit c = true) :
    trimWhiteSpace ds = ds := by
  unfold trimWhiteSpace
  rw [dropWhile_eq_self ds, dropWhile_eq_self ds.reverse, List.reverse_reverse]
  · intro c hc
    apply not_white_of_digit
    apply h
    have : c ∈ ds.reverse := List.mem_of_mem_head? hc
    simpa using this
  · intro c hc
    exact not_white_of_digit c (h c (List.mem_of_mem_head? hc))

theorem parseNumeric_digits (ds : List Char) (h : ∀ c ∈ ds, isDecDigit c = true) :
    parseNumeric ds = parseUnsignedDecimal ds := by
  have hx : isDecDigit 'x' = false := by decide
  have hX : isDecDigit 'X' = false := by decide
  have ho : isDecDigit 'o' = false := by decide
  have hO : isDecDigit 'O' = false := by decide
  have hb : isDecDigit 'b' = false := by decide
  have hB : isDecDigit 'B' = false := by decide
  have hp : isDecDigit '+' = false := by decide
  have hm : isDecDigit '-' = false := by decide
  unfold parseNumeric
  split <;> first | rfl | (exfalso; simp_all)

theorem parseUnsignedDecimal_digits (ds : List Char) (hne : ds ≠ [])
    (h : ∀ c ∈ ds, isDecDigit c = true) :
    parseUnsignedDecimal ds = roundToDouble (digitsValue 10 ds) 1 := by
  have hI : isDecDigit 'I' = false := by decide
  have h1 : ds ≠ ['I', 'n', 'f', 'i', 'n', 'i', 't', 'y'] := by
    intro hc
    have := h 'I' (by simp [hc])
    simp [hI] at this
  have h2 : ds.takeWhile isDecDigit = ds := List.takeWhile_eq_self_iff.mpr h
  have h3 : ds.dropWhile isDecDigit = [] := List.dropWhile_eq_nil_iff.mpr h
  simp [parseUnsignedDecimal, h1, h2, h3, hne, parseExponent, scaleDecimal]

theorem Number_digits (ds : List Char) (hv : isVersionComponent ds = true) :
    Number ds = roundToDouble (digitsValue 10 ds) 1 := by
  simp only [isVersionComponent, Bool.and_eq_true, Bool.not_eq_true', List.isEmpty_eq_false,
    List.all_eq_true] at hv
  obtain ⟨hne, h⟩ := hv
  have hne2 : ds ≠ [] := by simpa using hne
  simp only [Number, trimWhiteSpace_digits ds h, hne2, if_false, parseNumeric_digits ds h,
    parseUnsignedDecimal_digits ds hne2 h]

theorem versionParts_of_parseTriple (v : String) (t : Nat × Nat × Nat)
    (h : parseTriple v = some t) (e : exactTriple t) :
    versionParts v = [.fin (t.1 : Int) 0, .fin (t.2.1 : Int) 0, .fin (t.2.2 : Int) 0] := by
  unfold parseTriple at h
  split at h
  · rename_i a b c hs
    split at h
    · rename_i hv
      simp only [Bool.and_eq_true] at hv
      obtain ⟨⟨ha, hb⟩, hc⟩ := hv
      injection h with h
      subst h
      obtain ⟨e1, e2, e3⟩ := e
      simp only [versionParts, hs, List.map, Number_digits a ha, Number_digits b hb,
        Number_digits c hc, roundToDouble_exact _ e1, roundToDouble_exact _ e2,
        roundToDouble_exact _ e3]
    · cases h
  · cases h

theorem lt_fin_zero (a b : Int) : (JSNum.fin a 0).lt (JSNum.fin b 0) = decide (a < b) := by
  simp [JSNum.lt]

theorem compareLoop_exact (a b : Nat × Nat × Nat) :
    compareLoop [.fin (a.1 : Int) 0, .fin (a.2.1 : Int) 0, .fin (a.2.2 : Int) 0]
      [.fin (b.1 : Int) 0, .fin (b.2.1 : Int) 0, .fin (b.2.2 : Int) 0] 0 3 = lexCompare a b := by
  obtain ⟨a1, a2, a3⟩ := a
  obtain ⟨b1, b2, b3⟩ := b
  simp only [compareLoop, jsGreater, jsLess, toNumber, lt_fin_zero, lexCompare,
    List.getElem?_cons_zero, List.getElem?_cons_succ, decide_eq_true_eq, Nat.cast_lt, gt_iff_lt]

theorem compareVersions_of_triples (v1 v2 : String) (t1 t2 : Nat × Nat × Nat)
    (h1 : parseTriple v1 = some t1) (h2 : parseTriple v2 = some t2)
    (e1 : exactTriple t1) (e2 : exactTriple t2) :
    compareVersions v1 v2 = lexCompare t1 t2 := by
  unfold compareVersions
  rw [versionParts_of_parseTriple v1 t1 h1 e1, versionParts_of_parseTriple v2 t2 h2 e2]
  exact compareLoop_exact t1 t2

/-- C2 (amended): for valid version strings whose components are all at most
`2 ^ 53`, `compareVersions(v1, v2)` is the lexicographic comparison of the two
integer triples: `1` at the first component where the left is greater, `-1` at
the first where it is smaller, `0` exactly when all three are equal. -/
theorem compareVersions_eq_lexCompare (v1 v2 : String) (t1 t2 : Nat × Nat × Nat)
    (h1 : parseTriple v1 = some t1) (h2 : parseTriple v2 = some t2)
    (e1 : exactTriple t1) (e2 : exactTriple t2) :
    compareVersions v1 v2 = lexCompare t1 t2 :=
  compareVersions_of_triples v1 v2 t1 t2 h1 h2 e1 e2

/-- C2, the examples of the specification, by the amended statement:
`compareVersions("1.2.3","1.2.4") = -1`, `compareVersions("2.0.0","1.9.9") = 1`,
`compareVersions("1.0.0","1.0.0") = 0`. -/
theorem compareVersions_eq_lexCompare_witness :
    compareVersions "1.2.3" "1.2.4" = -1 ∧ compareVersions "2.0.0" "1.9.9" = 1 ∧
      compareVersions "1.0.0" "1.0.0" = 0 :=
  ⟨compareVersions_eq_lexCompare "1.2.3" "1.2.4" (1, 2, 3) (1, 2, 4)
      (by decide) (by decide) (by decide) (by decide),
   compareVersions_eq_lexCompare "2.0.0" "1.9.9" (2, 0, 0) (1, 9, 9)
      (by decide) (by decide) (by decide) (by decide),
   compareVersions_eq_lexCompare "1.0.0" "1.0.0" (1, 0, 0) (1, 0, 0)
      (by decide) (by decide) (by decide) (by decide)⟩

/-- C2 as stated fails: `9007199254740993` (`2 ^ 53 + 1`) is not a double and
`Number` rounds it to `2 ^ 53`, so two valid version strings with different
major components compare as equal. -/
theorem compareVersions_lex_counterexample :
    parseTriple "9007199254740993.0.0" = some (9007199254740993, 0, 0) ∧
      parseTriple "9007199254740992.0.0" = some (9007199254740992, 0, 0) ∧
      compareVersions "9007199254740993.0.0" "9007199254740992.0.0" = 0 ∧
      lexCompare (9007199254740993, 0, 0) (9007199254740992, 0, 0) = 1 := by
  decide

theorem lexCompare_pos_iff (a b : Nat × Nat × Nat) : lexCompare a b > 0 ↔ tripleLess b a := by
  obtain ⟨a1, a2, a3⟩ := a
  obtain ⟨b1, b2, b3⟩ := b
  simp only [lexCompare, tripleLess]
  split_ifs <;> simp <;> omega

/-- C3 (amended): for a valid local version `c` and a valid remote version
`r` whose components are all at most `2 ^ 53`, when the manifest fetch
succeeds `check()` returns `{currentVersion: c, latestVersion: r,
updateAvailable: u}` where `u` is true exactly when `r` is strictly higher
than `c` as a (major, minor, patch) triple. -/
theorem check_updateAvailable_iff (c r : String) (tc tr : Nat × Nat × Nat)
    (hc : parseTriple c = some tc) (hr : parseTriple r = some tr)
    (ec : exactTriple tc) (er : exactTriple tr) :
    ∃ u, check { version := some c } (.ok { version := some r })
        = .ok { currentVersion := c, latestVersion := r, updateAvailable := u } ∧
      (u = true ↔ tripleLess tc tr) := by
  refine ⟨decide (compareVersions r c > 0), rfl, ?_⟩
  rw [compareVersions_of_triples r c tr tc hr hc er ec, decide_eq_true_eq]
  exact lexCompare_pos_iff tr tc

/-- C3, an instance of the amended statement: remote `1.3.0` against local
`1.2.9`. -/
theorem check_updateAvailable_iff_witness :
    ∃ u, check { version := some "1.2.9" } (.ok { version := some "1.3.0" })
        = .ok { currentVersion := "1.2.9", latestVersion := "1.3.0", updateAvailable := u } ∧
      (u = true ↔ tripleLess (1, 2, 9) (1, 3, 0)) :=
  check_updateAvailable_iff "1.2.9" "1.3.0" (1, 2, 9) (1, 3, 0)
    (by decide) (by decide) (by decide) (by decide)

/-- C3 as stated fails: the remote minor `18014398509481985` (`2 ^ 54 + 1`) is
strictly higher than the local `18014398509481984`, both round to the same
double, and `check()` reports `updateAvailable: false`. -/
theorem check_updateAvailable_counterexample :
    parseTriple "1.18014398509481984.0" = some (1, 18014398509481984, 0) ∧
      parseTriple "1.18014398509481985.0" = some (1, 18014398509481985, 0) ∧
      tripleLess (1, 18014398509481984, 0) (1, 18014398509481985, 0) ∧
      check { version := some "1.18014398509481984.0" }
          (.ok { version := some "1.18014398509481985.0" })
        = .ok { currentVersion := "1.18014398509481984.0",
                latestVersion := "1.18014398509481985.0", updateAvailable := false } :=
  ⟨by decide, by decide, by decide, by rfl⟩

theorem JSNum.lt_nan_right (x : JSNum) : x.lt .nan = false := by
  cases x <;> rfl

theorem JSNum.lt_nan_left (x : JSNum) : JSNum.nan.lt x = false := by
  cases x <;> rfl

theorem compareStep_eq_decidedAt (p1 p2 : List JSNum) (i : Nat) (k : Int) :
    (if jsGreater p1[i]? p2[i]? then 1 else if jsLess p1[i]? p2[i]? then -1 else k)
      = (match decidedAt p1 p2 i with
         | some r => r
         | none => k) := by
  unfold decidedAt
  cases h1 : p1[i]? with
  | none => simp [jsGreater, jsLess, toNumber, JSNum.lt_nan_right, JSNum.lt_nan_left]
  | some a =>
    cases h2 : p2[i]? with
    | none => simp [jsGreater, jsLess, toNumber, JSNum.lt_nan_right, JSNum.lt_nan_left]
    | some b =>
      by_cases ha : a = .nan
      · subst ha; simp [jsGreater, jsLess, toNumber, JSNum.lt_nan_right, JSNum.lt_nan_left]
      · by_cases hb : b = .nan
        · subst hb; simp [jsGreater, jsLess, toNumber, JSNum.lt_nan_right, JSNum.lt_nan_left]
        · simp only [jsGreater, jsLess, toNumber, ha, hb, or_self, if_false]
          split_ifs <;> rfl

theorem compareLoop_eq_firstDecided (p1 p2 : List JSNum) :
    compareLoop p1 p2 0 3 = firstDecided p1 p2 := by
  simp only [compareLoop, firstDecided, compareStep_eq_decidedAt]

theorem compareLoop_take (p1 p2 : List JSNum) :
    compareLoop p1 p2 0 3 = compareLoop (p1.take 3) (p2.take 3) 0 3 := by
  simp [compareLoop, List.getElem?_take]

/-- C10: `compareVersions` skips each of the first three positions at which
either side has no component or a non-numeric one and decides at the first
position where both sides are numeric and differ; components after the third
are ignored. So `compareVersions("1.2", "1.2.9") = 0`,
`compareVersions("1.2.3.4", "1.2.3.5") = 0`, and `check()` reports
`updateAvailable: false` for a remote `1.2.9` against a local `1.2`. -/
theorem compareVersions_skips_non_numeric :
    (∀ v1 v2, compareVersions v1 v2 = firstDecided (versionParts v1) (versionParts v2)) ∧
      (∀ v1 v2, compareVersions v1 v2
        = compareLoop ((versionParts v1).take 3) ((versionParts v2).take 3) 0 3) ∧
      compareVersions "1.2" "1.2.9" = 0 ∧
      compareVersions "1.2.3.4" "1.2.3.5" = 0 ∧
      check { version := some "1.2" } (.ok { version := some "1.2.9" })
        = .ok { currentVersion := "1.2", latestVersion := "1.2.9", updateAvailable := false } :=
  ⟨fun _ _ => compareLoop_eq_firstDecided _ _, fun _ _ => compareLoop_take _ _,
    by decide, by decide, by rfl⟩

/-! ## The file system operations -/

theorem get_set (fs : FS) (p q : Path) (e : Entry) :
    FS.get (FS.set fs p e) q = if q = p then some e else FS.get fs q := by
  induction fs with
  | nil =>
    by_cases h : q = p
    · simp [FS.set, FS.get, h]
    · have h2 : ¬ p = q := fun hc => h hc.symm
      simp [FS.set, FS.get, h, h2]
  | cons x rest ih =>
    obtain ⟨k, v⟩ := x
    by_cases hk : k = p
    · subst hk
      by_cases h : q = k
      · simp [FS.set, FS.get, h]
      · have h2 : ¬ k = q := fun hc => h hc.symm
        simp [FS.set, FS.get, h, h2]
    · by_cases h : k = q
      · subst h
        simp [FS.set, FS.get, hk]
      · simp [FS.set, FS.get, hk, h, ih]

theorem get_filter (fs : FS) (f : Path → Bool) (q : Path) :
    FS.get (fs.filter (fun x => f x.1)) q = if f q then FS.get fs q else none := by
  induction fs with
  | nil => simp [FS.get]
  | cons x rest ih =>
    obtain ⟨k, v⟩ := x
    by_cases hf : f k = true
    · by_cases h : k = q
      · subst h; simp [List.filter, hf, FS.get]
      · simp [List.filter, hf, FS.get, h, ih]
    · by_cases h : k = q
      · subst h
        simp only [Bool.not_eq_true] at hf
        simp [List.filter, hf, FS.get, ih]
      · simp only [Bool.not_eq_true] at hf
        simp [List.filter, hf, FS.get, h, ih]

theorem get_erase (fs : FS) (p q : Path) :
    FS.get (FS.erase fs p) q = if q = p then none else FS.get fs q := by
  unfold FS.erase
  rw [get_filter fs (fun k => decide (k ≠ p)) q]
  by_cases h : q = p <;> simp [h]

theorem relativeTo_eq_some (p q r : Path) : relativeTo p q = some r ↔ q = p ++ r := by
  induction p generalizing q with
  | nil => simp [relativeTo, eq_comm]
  | cons a p ih =>
    cases q with
    | nil => simp [relativeTo]
    | cons b q =>
      by_cases h : a = b
      · subst h; simp [relativeTo, ih]
      · have h2 : ¬ b = a := fun hc => h hc.symm
        simp [relativeTo, h, h2]

theorem relativeTo_append (p r : Path) : relativeTo p (p ++ r) = some r :=
  (relativeTo_eq_some p (p ++ r) r).mpr rfl

theorem relativeTo_isSome (p q : Path) : (relativeTo p q).isSome = true ↔ p <+: q := by
  constructor
  · intro h
    obtain ⟨r, hr⟩ := Option.isSome_iff_exists.mp h
    exact ⟨r, ((relativeTo_eq_some p q r).mp hr).symm⟩
  · rintro ⟨r, rfl⟩
    simp [relativeTo_append]

theorem get_removeTree (fs : FS) (p q : Path) :
    FS.get (FS.removeTree fs p) q = if p <+: q then none else FS.get fs q := by
  unfold FS.removeTree
  rw [get_filter fs (fun k => (relativeTo p k).isNone) q]
  by_cases h : p <+: q
  · have := (relativeTo_isSome p q).mpr h
    simp only [h, if_true]
    cases hr : relativeTo p q
    · simp [hr] at this
    · simp
  · have h2 : (relativeTo p q).isSome = false := by
      cases hs : (relativeTo p q).isSome
      · rfl
      · exact absurd ((relativeTo_isSome p q).mp hs) h
    simp only [h, if_false]
    cases hr : relativeTo p q
    · simp
    · simp [hr] at h2

theorem get_isSome_of_mem (fs : FS) (k : Path) (v : Entry) (h : (k, v) ∈ fs) :
    (FS.get fs k).isSome = true := by
  induction fs with
  | nil => cases h
  | cons x rest ih =>
    obtain ⟨k2, v2⟩ := x
    by_cases hk : k2 = k
    · simp [FS.get, hk]
    · simp only [FS.get, hk, if_false]
      apply ih
      cases h with
      | head => exact absurd rfl hk
      | tail _ h => exact h

theorem mem_of_get (fs : FS) (k : Path) (v : Entry) (h : FS.get fs k = some v) : (k, v) ∈ fs := by
  induction fs with
  | nil => cases h
  | cons x rest ih =>
    obtain ⟨k2, v2⟩ := x
    by_cases hk : k2 = k
    · subst hk
      simp only [FS.get, if_true, Option.some.injEq] at h
      subst h
      exact List.mem_cons_self _ _
    · simp only [FS.get, hk, if_false] at h
      exact List.mem_cons_of_mem _ (ih h)

theorem mem_insertName (n x : String) (l : List String) :
    x ∈ insertName n l ↔ x = n ∨ x ∈ l := by
  induction l with
  | nil => simp [insertName]
  | cons m rest ih =>
    unfold insertName
    by_cases h1 : nameBefore n.data m.data = true
    · simp [h1]
    · by_cases h2 : n = m
      · subst h2; simp [h1]
      · rw [if_neg h1, if_neg h2, List.mem_cons, ih, List.mem_cons]
        tauto

theorem mem_sortNames (x : String) (l : List String) : x ∈ sortNames l ↔ x ∈ l := by
  induction l with
  | nil => simp [sortNames]
  | cons n rest ih => simp [sortNames, mem_insertName, ih]

theorem mem_childNames (fs : FS) (p : Path) (n : String) :
    n ∈ FS.childNames fs p ↔ (FS.get fs (p ++ [n])).isSome = true := by
  unfold FS.childNames
  rw [mem_sortNames, List.mem_filterMap]
  constructor
  · rintro ⟨⟨k, v⟩, hmem, hk⟩
    simp only at hk
    split at hk
    · rename_i m hm
      injection hk with hk
      subst hk
      have := (relativeTo_eq_some p k [m]).mp hm
      subst this
      exact get_isSome_of_mem fs _ v hmem
    · cases hk
  · intro h
    obtain ⟨v, hv⟩ := Option.isSome_iff_exists.mp h
    exact ⟨(p ++ [n], v), mem_of_get fs _ v hv, by simp [relativeTo_append]⟩

/-! ## `downloadFile` -/

theorem createWriteStream_some (fs : FS) (dest : Path) (h : createWriteStream fs dest ≠ none) :
    isDirectory fs dest = false ∧ FS.parentIsDir fs dest = true ∧
      createWriteStream fs dest = some (FS.set fs dest (.file "")) := by
  unfold createWriteStream at h ⊢
  by_cases hc : (isDirectory fs dest || !FS.parentIsDir fs dest) = true
  · simp [hc] at h
  · have hc2 := hc
    simp only [Bool.or_eq_true, Bool.not_eq_true', not_or, Bool.not_eq_true,
      Bool.not_eq_false] at hc2
    exact ⟨hc2.1, hc2.2, by simp [hc2.1, hc2.2]⟩

theorem dropLast_ne_self (p : Path) (h : p ≠ []) : p.dropLast ≠ p := by
  intro hc
  have := congrArg List.length hc
  rw [List.length_dropLast] at this
  have : p.length ≠ 0 := fun h0 => h (List.length_eq_zero.mp h0)
  omega

theorem canOpen_of_get_eq (fs fs2 : FS) (dest : Path)
    (h : createWriteStream fs dest ≠ none)
    (hg : ∀ q, q ≠ dest → FS.get fs2 q = FS.get fs q)
    (hd : FS.get fs2 dest ≠ some .dir) :
    createWriteStream fs2 dest ≠ none := by
  obtain ⟨_, h2, _⟩ := createWriteStream_some fs dest h
  have hne : dest ≠ [] := by
    intro hc; simp [FS.parentIsDir, hc] at h2
  have hp : FS.parentIsDir fs2 dest = true := by
    simp only [FS.parentIsDir] at h2 ⊢
    rw [hg _ (dropLast_ne_self dest hne)]
    exact h2
  have hdir : isDirectory fs2 dest = false := by
    simp only [isDirectory, beq_eq_false_iff_ne, ne_eq]
    exact hd
  simp [createWriteStream, hp, hdir]

theorem unlinkSync_set_file (fs : FS) (dest : Path) (c : String) :
    unlinkSync (FS.set fs dest (.file c)) dest
      = .ok () (FS.erase (FS.set fs dest (.file c)) dest) := by
  simp [unlinkSync, get_set]

theorem get_erase_set (fs : FS) (dest q : Path) (e : Entry) :
    FS.get (FS.erase (FS.set fs dest e) dest) q = if q = dest then none else FS.get fs q := by
  rw [get_erase, get_set]
  by_cases h : q = dest <;> simp [h]

theorem get_set_set (fs : FS) (dest q : Path) (e1 e2 : Entry) :
    FS.get (FS.set (FS.set fs dest e1) dest e2) q = if q = dest then some e2 else FS.get fs q := by
  rw [get_set, get_set]
  by_cases h : q = dest <;> simp [h]

theorem canOpen_after_unlink (fs : FS) (dest : Path) (h : createWriteStream fs dest ≠ none) :
    createWriteStream (FS.erase (FS.set fs dest (.file "")) dest) dest ≠ none := by
  apply canOpen_of_get_eq fs _ dest h
  · intro q hq; rw [get_erase_set]; simp [hq]
  · rw [get_erase_set]; simp

theorem downloadFile_redirect (server : Server) (opened : Schedule) (fuel k : Nat)
    (url : Option String) (dest : Path) (fs : FS) (code : Nat) (body : String)
    (loc : Option String)
    (hopen : createWriteStream fs dest ≠ none) (hsched : opened k = true)
    (hresp : server k url = .status code loc body) (hcode : code = 301 ∨ code = 302) :
    downloadFile server opened (fuel + 1) k url dest fs
      = downloadFile server opened fuel (k + 1) loc dest
          (FS.erase (FS.set fs dest (.file "")) dest) := by
  obtain ⟨_, _, hc⟩ := createWriteStream_some fs dest hopen
  simp only [downloadFile, hc, hresp, hcode, hsched, if_true, unlinkSync_set_file]

theorem downloadFile_ok (server : Server) (opened : Schedule) (fuel k : Nat)
    (url : Option String) (dest : Path) (fs : FS) (body : String) (loc : Option String)
    (hopen : createWriteStream fs dest ≠ none)
    (hresp : server k url = .status 200 loc body) :
    downloadFile server opened (fuel + 1) k url dest fs
      = some { outcome := .ok () (FS.set (FS.set fs dest (.file "")) dest (.file body)),
               openPending := false } := by
  obtain ⟨_, _, hc⟩ := createWriteStream_some fs dest hopen
  simp [downloadFile, hc, hresp]

theorem downloadFile_final (server : Server) (opened : Schedule) (fuel k : Nat)
    (url : Option String) (dest : Path) (fs : FS) (code : Nat) (body : String)
    (loc : Option String)
    (hopen : createWriteStream fs dest ≠ none) (hsched : opened k = true)
    (hresp : server k url = .status code loc body) (hcode : code ≠ 301 ∧ code ≠ 302) :
    ∃ fs2, downloadFile server opened (fuel + 1) k url dest fs
        = some { outcome := if code = 200 then .ok () fs2 else .thrown (.httpStatus code) fs2,
                 openPending := false } ∧
      ∀ q, FS.get fs2 q
        = if q = dest then (if code = 200 then some (.file body) else none) else FS.get fs q := by
  obtain ⟨_, _, hc⟩ := createWriteStream_some fs dest hopen
  have hnr : ¬ (code = 301 ∨ code = 302) := by omega
  by_cases h200 : code = 200
  · subst h200
    refine ⟨FS.set (FS.set fs dest (.file "")) dest (.file body), ?_, ?_⟩
    · rw [downloadFile_ok server opened fuel k url dest fs body loc hopen hresp]; rfl
    · intro q; rw [get_set_set]; simp
  · refine ⟨FS.erase (FS.set fs dest (.file "")) dest, ?_, ?_⟩
    · simp [downloadFile, hc, hresp, hnr, h200, hsched, unlinkSync_set_file]
    · intro q; rw [get_erase_set]; simp [h200]

theorem downloadFile_chain (server : Server) (opened : Schedule) (dest : Path) (code : Nat)
    (body : String) (loc : Option String) (hcode : code ≠ 301 ∧ code ≠ 302) (extra : Nat) :
    ∀ (n k : Nat) (u : Nat → String) (fs : FS),
      createWriteStream fs dest ≠ none →
      (∀ i, i ≤ n → opened (k + i) = true) →
      (∀ i, i < n → ∃ c b, (c = 301 ∨ c = 302) ∧
        server (k + i) (some (u i)) = .status c (some (u (i + 1))) b) →
      server (k + n) (some (u n)) = .status code loc body →
      ∃ fs2, downloadFile server opened (n + extra + 1) k (some (u 0)) dest fs
          = some { outcome :=
                     if code = 200 then .ok () fs2 else .thrown (.httpStatus code) fs2,
                   openPending := false } ∧
        ∀ q, FS.get fs2 q
          = if q = dest then (if code = 200 then some (.file body) else none)
            else FS.get fs q := by
  intro n
  induction n with
  | zero =>
    intro k u fs hopen hsched _ hfinal
    rw [Nat.zero_add]
    exact downloadFile_final server opened extra k (some (u 0)) dest fs code body loc hopen
      (by simpa using hsched 0 (le_refl 0)) hfinal hcode
  | succ n ih =>
    intro k u fs hopen hsched hredir hfinal
    obtain ⟨c, b, hc, hresp⟩ := hredir 0 (by omega)
    rw [Nat.add_zero] at hresp
    have hf : n + 1 + extra + 1 = (n + extra + 1) + 1 := by omega
    rw [hf, downloadFile_redirect server opened (n + extra + 1) k (some (u 0)) dest fs c b _
      hopen (by simpa using hsched 0 (by omega)) hresp hc]
    obtain ⟨fs2, h1, h2⟩ := ih (k + 1) (fun i => u (i + 1)) _ (canOpen_after_unlink fs dest hopen)
      (by
        intro i hi
        have : k + 1 + i = k + (i + 1) := by omega
        rw [this]; exact hsched (i + 1) (by omega))
      (by
        intro i hi
        obtain ⟨c2, b2, hc2, hr2⟩ := hredir (i + 1) (by omega)
        refine ⟨c2, b2, hc2, ?_⟩
        have : k + 1 + i = k + (i + 1) := by omega
        rw [this]; exact hr2)
      (by
        have : k + 1 + n = k + (n + 1) := by omega
        rw [this]; exact hfinal)
    refine ⟨fs2, h1, ?_⟩
    intro q
    rw [h2 q, get_erase_set]
    by_cases hq : q = dest <;> simp [hq]

theorem downloadFile_loop (opened : Schedule) (dest : Path) :
    ∀ (fuel k : Nat) (url : Option String) (fs : FS),
      downloadFile loopServer opened fuel k url dest fs = none := by
  intro fuel
  induction fuel with
  | zero => intro k url fs; rfl
  | succ fuel ih =>
    intro k url fs
    unfold downloadFile
    cases hc : createWriteStream fs dest with
    | none => rfl
    | some created =>
      simp only [loopServer, true_or, or_true, if_true]
      split
      · rfl
      · exact ih _ _ _

theorem downloadFile_unopenable (server : Server) (opened : Schedule) (dest : Path) (fs : FS)
    (h : createWriteStream fs dest = none) (fuel k : Nat) (url : Option String)
    (hv : ∀ e, server k url ≠ .invalid e) :
    downloadFile server opened fuel k url dest fs = none := by
  cases fuel with
  | zero => rfl
  | succ fuel =>
    unfold downloadFile
    cases hr : server k url with
    | invalid e => exact absurd hr (hv e)
    | status code location body => simp [h]
    | error e => simp [h]

/-- C5 (amended): `downloadFile` follows 301/302 redirects without any bound
on their number. For every `n`, when the first `n` requests are answered by
redirects and the next one by a status that is not a redirect, `dest` can be
opened for writing, and each write stream has opened `dest` when the response
to its request is handled, the download settles after those `n` redirects:
with status 200 it succeeds and the file at `dest` holds the body; with any
other status it fails with the download error of that status and no file
exists at `dest`; no other path changes and no open is left pending. -/
theorem downloadFile_follows_every_chain (server : Server) (opened : Schedule) (n : Nat)
    (u : Nat → String) (dest : Path) (fs : FS) (code : Nat) (loc : Option String)
    (body : String) (fuel : Nat)
    (hfuel : n < fuel)
    (hopen : createWriteStream fs dest ≠ none)
    (hsched : ∀ i, i ≤ n → opened i = true)
    (hredir : ∀ i, i < n → ∃ c b, (c = 301 ∨ c = 302) ∧
      server i (some (u i)) = .status c (some (u (i + 1))) b)
    (hfinal : server n (some (u n)) = .status code loc body)
    (hcode : code ≠ 301 ∧ code ≠ 302) :
    ∃ fs2, downloadFile server opened fuel 0 (some (u 0)) dest fs
        = some { outcome :=
                   if code = 200 then .ok () fs2 else .thrown (.httpStatus code) fs2,
                 openPending := false } ∧
      ∀ q, FS.get fs2 q
        = if q = dest then (if code = 200 then some (.file body) else none)
          else FS.get fs q := by
  have hf : fuel = n + (fuel - n - 1) + 1 := by omega
  rw [hf]
  exact downloadFile_chain server opened dest code body loc hcode (fuel - n - 1) n 0 u fs hopen
    (by intro i hi; simpa using hsched i hi)
    (by intro i hi; simpa using hredir i hi) (by simpa using hfinal)

/-- C5, an instance of the amended statement: a chain of 40 redirects ending
in a 200 response is followed to its end and succeeds. -/
theorem downloadFile_follows_every_chain_witness :
    ∃ fs2, downloadFile (chainServer 40 "zip") promptOpens 41 0 (some "https://host/next")
        ["app", "update.zip"] bareFS = some { outcome := .ok () fs2, openPending := false } ∧
      ∀ q, FS.get fs2 q
        = if q = ["app", "update.zip"] then some (.file "zip") else FS.get bareFS q :=
  downloadFile_follows_every_chain (chainServer 40 "zip") promptOpens 40
    (fun _ => "https://host/next") ["app", "update.zip"] bareFS 200 none "zip" 41
    (by decide) (by decide) (fun _ _ => rfl)
    (fun i hi => ⟨302, "", Or.inr rfl, by simp [chainServer, hi]⟩)
    (by simp [chainServer]) (by decide)

/-- C5 as stated fails: there is no redirect limit. Against a remote side that
always redirects, `downloadFile` never settles, whatever the fuel: it does
not terminate by failing. -/
theorem downloadFile_redirect_loop_counterexample :
    ¬ ∃ fuel, downloadFile loopServer promptOpens fuel 0 (some "https://host/loop")
        ["app", "update.zip"] bareFS ≠ none := by
  rintro ⟨fuel, h⟩
  exact h (downloadFile_loop _ _ fuel 0 _ _)

/-- C6 (amended): when the request for `url` is answered with status 302 and
`Location: X` and the request for `X` with status 200 and body `B`, `dest` can
be opened for writing, and the first write stream has opened `dest` when the
302 response is handled, then `downloadFile(url, dest)` succeeds, afterwards
the file at `dest` exists with contents exactly `B`, and every other path is
as before: nothing else is created or left behind. -/
theorem downloadFile_redirect_then_ok (server : Server) (opened : Schedule) (url X B : String)
    (dest : Path) (fs : FS) (b0 : String) (loc : Option String) (fuel : Nat)
    (hopen : createWriteStream fs dest ≠ none)
    (hsched : opened 0 = true)
    (h1 : server 0 (some url) = .status 302 (some X) b0)
    (h2 : server 1 (some X) = .status 200 loc B) :
    ∃ fs2, downloadFile server opened (fuel + 2) 0 (some url) dest fs
        = some { outcome := .ok () fs2, openPending := false } ∧
      FS.get fs2 dest = some (.file B) ∧
      ∀ q, q ≠ dest → FS.get fs2 q = FS.get fs q := by
  rw [downloadFile_redirect server opened (fuel + 1) 0 (some url) dest fs 302 b0 _ hopen hsched
    h1 (Or.inr rfl)]
  rw [downloadFile_ok server opened fuel 1 (some X) dest _ B loc
    (canOpen_after_unlink fs dest hopen) h2]
  refine ⟨_, rfl, by simp [get_set], ?_⟩
  intro q hq
  rw [get_set_set, get_erase_set]
  simp [hq]

/-- C6, an instance of the amended statement: one redirect, then the archive. -/
theorem downloadFile_redirect_then_ok_witness :
    ∃ fs2, downloadFile (chainServer 1 "zip") promptOpens 2 0 (some "https://host/start")
        ["app", "update.zip"] bareFS = some { outcome := .ok () fs2, openPending := false } ∧
      FS.get fs2 ["app", "update.zip"] = some (.file "zip") ∧
      ∀ q, q ≠ ["app", "update.zip"] → FS.get fs2 q = FS.get bareFS q :=
  downloadFile_redirect_then_ok (chainServer 1 "zip") promptOpens "https://host/start"
    "https://host/next" "zip" ["app", "update.zip"] bareFS "" none 0
    (by decide) rfl (by decide) (by decide)

/-- C6 as stated fails: not every destination path can be written. For a
destination in a directory that does not exist, the write stream cannot open
its file and `downloadFile` never settles, although the requests are answered
with 302 and then 200 and every stream is given time to open. -/
theorem downloadFile_missing_directory_counterexample :
    chainServer 1 "zip" 0 (some "https://host/start") = .status 302 (some "https://host/next") "" ∧
      chainServer 1 "zip" 1 (some "https://host/next") = .status 200 none "zip" ∧
      ¬ ∃ fuel, downloadFile (chainServer 1 "zip") promptOpens fuel 0
          (some "https://host/start") ["missing", "update.zip"] bareFS ≠ none := by
  refine ⟨by decide, by decide, ?_⟩
  rintro ⟨fuel, h⟩
  exact h (downloadFile_unopenable _ _ _ _ (by decide) fuel 0 _
    (fun e he => by simp [chainServer] at he))

/-! ## `copyRecursiveSync` -/

theorem wf_ancestor (fs : FS) (src : Path)
    (hwf : ∀ r n, (FS.get fs (src ++ r ++ [n])).isSome = true → FS.get fs (src ++ r) = some .dir) :
    ∀ t r, (FS.get fs (src ++ r ++ t)).isSome = true → t ≠ [] →
      FS.get fs (src ++ r) = some .dir := by
  intro t
  induction t using List.reverseRecOn with
  | nil => intro r _ h; exact absurd rfl h
  | append_singleton l a ih =>
    intro r h _
    have h1 : FS.get fs (src ++ (r ++ l)) = some .dir := by
      apply hwf
      simpa [List.append_assoc] using h
    by_cases hl : l = []
    · subst hl; simpa using h1
    · apply ih r _ hl
      rw [List.append_assoc, h1]; rfl

theorem mkdir_step (fs : FS) (dest : Path)
    (hnf : ∀ c, FS.get fs dest ≠ some (.file c))
    (hdest : FS.get fs dest = some .dir ∨ FS.parentIsDir fs dest = true) :
    ∃ fs1, (if !existsSync fs dest then mkdirSync (fun _ => none) fs dest else .ok () fs)
        = .ok () fs1 ∧
      ∀ q, FS.get fs1 q = if q = dest then some .dir else FS.get fs q := by
  cases hg : FS.get fs dest with
  | none =>
    have hp : FS.parentIsDir fs dest = true := by
      rcases hdest with h | h
      · rw [hg] at h; cases h
      · exact h
    refine ⟨FS.set fs dest .dir, ?_, fun q => get_set fs dest q .dir⟩
    simp [existsSync, mkdirSync, hg, hp]
  | some e =>
    cases e with
    | file c => exact absurd hg (hnf c)
    | dir =>
      refine ⟨fs, ?_, ?_⟩
      · simp [existsSync, hg]
      · intro q
        by_cases hq : q = dest
        · subst hq; simp [hg]
        · simp [hq]

theorem copy_overlay : ∀ (fuel : Nat) (src dest : Path) (fs : FS),
    (FS.get fs src).isSome = true →
    (∀ r n, (FS.get fs (src ++ r ++ [n])).isSome = true → FS.get fs (src ++ r) = some .dir) →
    (∀ r, (FS.get fs (src ++ r)).isSome = true → ¬ src <+: dest ++ r) →
    (∀ r, FS.get fs (src ++ r) = some .dir → ∀ c, FS.get fs (dest ++ r) ≠ some (.file c)) →
    (∀ r c, FS.get fs (src ++ r) = some (.file c) → FS.get fs (dest ++ r) ≠ some .dir) →
    (FS.get fs dest = some .dir ∨ FS.parentIsDir fs dest = true) →
    (∀ r, (FS.get fs (src ++ r)).isSome = true → r.length < fuel) →
    ∃ fs2, copyRecursiveSync (fun _ => none) fuel src dest fs = some (.ok () fs2) ∧
      (∀ r, FS.get fs2 (dest ++ r)
        = (FS.get fs (src ++ r)).orElse (fun _ => FS.get fs (dest ++ r))) ∧
      (∀ q, ¬ dest <+: q → FS.get fs2 q = FS.get fs q) := by
  intro fuel
  induction fuel with
  | zero =>
    intro src dest fs hsrc _ _ _ _ _ hdepth
    have := hdepth [] (by simpa using hsrc)
    simp at this
  | succ fuel ih =>
    intro src dest fs hsrc hwf hni hcd hcf hdest hdepth
    have hsd : ∀ r, src ++ r ≠ dest := by
      intro r hc
      exact hni [] (by simpa using hsrc) ⟨r, by simpa using hc⟩
    cases hs : FS.get fs src with
    | none => rw [hs] at hsrc; cases hsrc
    | some e =>
      cases e with
      | file c =>
        have hnd : FS.get fs dest ≠ some .dir := by
          have := hcf [] c (by simpa using hs)
          simpa using this
        have hp : FS.parentIsDir fs dest = true := by
          rcases hdest with h | h
          · exact absurd h hnd
          · exact h
        have hid : isDirectory fs dest = false := by
          simp only [isDirectory, beq_eq_false_iff_ne, ne_eq]; exact hnd
        refine ⟨FS.set fs dest (.file c), ?_, ?_, ?_⟩
        · simp [copyRecursiveSync, existsSync, isDirectory, hs, copyFileSync, hp, hnd]
        · intro r
          rw [get_set]
          by_cases hr : r = []
          · subst hr; simp [hs]
          · have h1 : dest ++ r ≠ dest := by simpa using hr
            have h2 : FS.get fs (src ++ r) = none := by
              cases hg : FS.get fs (src ++ r) with
              | none => rfl
              | some v =>
                have := wf_ancestor fs src hwf r [] (by simp [hg]) hr
                simp [hs] at this
            simp [h1, h2]
        · intro q hq
          rw [get_set]
          have : q ≠ dest := fun hc => hq ⟨[], by simp [hc]⟩
          simp [this]
      | dir =>
        have hnf : ∀ c, FS.get fs dest ≠ some (.file c) := by
          intro c
          have := hcd [] (by simpa using hs) c
          simpa using this
        obtain ⟨fs1, hmk, hfs1⟩ := mkdir_step fs dest hnf hdest
        have hS1 : ∀ r, FS.get fs1 (src ++ r) = FS.get fs (src ++ r) := by
          intro r; rw [hfs1]; simp [hsd r]
        have hrd : readdirSync fs1 src = .ok (FS.childNames fs1 src) fs1 := by
          have : FS.get fs1 src = some .dir := by
            have := hS1 []; simp only [List.append_nil] at this; rw [this, hs]
          simp [readdirSync, this]
        -- the loop over the children
        have fold : ∀ (todo done : List String) (g : FS),
            (∀ q, FS.get g q = FS.get fs1 q ∨
              ∃ r, r ≠ [] ∧ q = dest ++ r ∧ (FS.get fs (src ++ r)).isSome = true ∧
                FS.get g q = FS.get fs (src ++ r)) →
            (∀ n, n ∈ done → ∀ r, (FS.get fs (src ++ n :: r)).isSome = true →
              FS.get g (dest ++ n :: r) = FS.get fs (src ++ n :: r)) →
            (∀ n, n ∈ todo → (FS.get fs (src ++ [n])).isSome = true) →
            ∃ g2, forEachName
                (fun childItemName g =>
                  copyRecursiveSync (fun _ => none) fuel (src ++ [childItemName])
                    (dest ++ [childItemName]) g) todo g = some (.ok () g2) ∧
              (∀ q, FS.get g2 q = FS.get fs1 q ∨
                ∃ r, r ≠ [] ∧ q = dest ++ r ∧ (FS.get fs (src ++ r)).isSome = true ∧
                  FS.get g2 q = FS.get fs (src ++ r)) ∧
              (∀ n, n ∈ done ++ todo → ∀ r, (FS.get fs (src ++ n :: r)).isSome = true →
                FS.get g2 (dest ++ n :: r) = FS.get fs (src ++ n :: r)) := by
          intro todo
          induction todo with
          | nil =>
            intro done g J1 J2 _
            exact ⟨g, rfl, J1, by simpa using J2⟩
          | cons n rest ihr =>
            intro done g J1 J2 hex
            -- the source tree is untouched so far
            have SU : ∀ r, FS.get g (src ++ r) = FS.get fs (src ++ r) := by
              intro r
              rcases J1 (src ++ r) with h | ⟨r2, _, he, hsome, _⟩
              · rw [h, hS1]
              · exact absurd ⟨r, he⟩ (hni r2 hsome)
            have hgd : FS.get g dest = some .dir := by
              rcases J1 dest with h | ⟨r2, hne, he, _, _⟩
              · rw [h, hfs1]; simp
              · exact absurd (by simpa using he.symm) hne
            have hdu : ∀ r, FS.get g (dest ++ n :: r) = FS.get fs (dest ++ n :: r) ∨
                ((FS.get fs (src ++ n :: r)).isSome = true ∧
                  FS.get g (dest ++ n :: r) = FS.get fs (src ++ n :: r)) := by
              intro r
              rcases J1 (dest ++ n :: r) with h | ⟨r2, _, he, hsome, hv⟩
              · left; rw [h, hfs1]; simp
              · have : r2 = n :: r := (List.append_cancel_left he).symm
                subst this
                exact Or.inr ⟨hsome, hv⟩
            have es : ∀ r, src ++ [n] ++ r = src ++ n :: r := fun r => by simp
            have ed : ∀ r, dest ++ [n] ++ r = dest ++ n :: r := fun r => by simp
            obtain ⟨g1, hcopy, hpost, hframe⟩ := ih (src ++ [n]) (dest ++ [n]) g
              (by rw [SU]; exact hex n (List.mem_cons_self _ _))
              (by
                intro r m h
                have e1 : src ++ [n] ++ r ++ [m] = src ++ (n :: r) ++ [m] := by simp
                rw [e1, List.append_assoc, SU, ← List.append_assoc] at h
                rw [es, SU]
                exact hwf (n :: r) m h)
              (by
                intro r h
                rw [es, SU] at h
                rw [ed]
                rintro ⟨t, ht⟩
                exact hni (n :: r) h ⟨[n] ++ t, by rw [← ht]; simp⟩)
              (by
                intro r h c
                rw [es, SU] at h
                rw [ed]
                rcases hdu r with h2 | ⟨_, h2⟩
                · rw [h2]; exact hcd (n :: r) h c
                · rw [h2, h]; simp)
              (by
                intro r c h
                rw [es, SU] at h
                rw [ed]
                rcases hdu r with h2 | ⟨_, h2⟩
                · rw [h2]; exact hcf (n :: r) c h
                · rw [h2, h]; simp)
              (by
                right
                simp [FS.parentIsDir, hgd])
              (by
                intro r h
                rw [es, SU] at h
                have := hdepth (n :: r) h
                simpa using this)
            have hpost2 : ∀ r, FS.get g1 (dest ++ n :: r)
                = (FS.get fs (src ++ n :: r)).orElse (fun _ => FS.get g (dest ++ n :: r)) := by
              intro r
              have := hpost r
              rw [es, ed, SU] at this
              exact this
            have J1' : ∀ q, FS.get g1 q = FS.get fs1 q ∨
                ∃ r, r ≠ [] ∧ q = dest ++ r ∧ (FS.get fs (src ++ r)).isSome = true ∧
                  FS.get g1 q = FS.get fs (src ++ r) := by
              intro q
              by_cases hq : dest ++ [n] <+: q
              · obtain ⟨r, hr⟩ := hq
                have hq2 : q = dest ++ n :: r := by rw [← hr]; simp
                subst hq2
                rw [hpost2]
                cases hv : FS.get fs (src ++ n :: r) with
                | none => simpa using J1 (dest ++ n :: r)
                | some v =>
                  right
                  exact ⟨n :: r, by simp, rfl, by simp [hv], by simp [hv]⟩
              · rw [hframe q hq]; exact J1 q
            have J2' : ∀ m, m ∈ done ++ [n] → ∀ r, (FS.get fs (src ++ m :: r)).isSome = true →
                FS.get g1 (dest ++ m :: r) = FS.get fs (src ++ m :: r) := by
              intro m hm r hsome
              by_cases hmn : m = n
              · subst hmn
                rw [hpost2]
                obtain ⟨v, hv⟩ := Option.isSome_iff_exists.mp hsome
                simp [hv]
              · have hm2 : m ∈ done := by
                  rcases List.mem_append.mp hm with h | h
                  · exact h
                  · exact absurd (List.mem_singleton.mp h) hmn
                have hnp : ¬ dest ++ [n] <+: dest ++ m :: r := by
                  rintro ⟨t, ht⟩
                  rw [List.append_assoc] at ht
                  have := List.append_cancel_left ht
                  simp at this
                  exact hmn this.1.symm
                rw [hframe _ hnp]
                exact J2 m hm2 r hsome
            obtain ⟨g2, hrest, K1, K2⟩ := ihr (done ++ [n]) g1 J1' J2'
              (fun m hm => hex m (List.mem_cons_of_mem _ hm))
            refine ⟨g2, ?_, K1, ?_⟩
            · simp [forEachName, hcopy, hrest]
            · intro m hm
              apply K2
              simpa [List.append_assoc] using hm
        obtain ⟨fs2, hrun, K1, K2⟩ := fold (FS.childNames fs1 src) [] fs1
          (fun q => Or.inl rfl) (by intro n hn; cases hn)
          (by
            intro n hn
            have := (mem_childNames fs1 src n).mp hn
            rwa [hS1] at this)
        refine ⟨fs2, ?_, ?_, ?_⟩
        · have hcond : (existsSync fs src && isDirectory fs src) = true := by
            simp [existsSync, isDirectory, hs]
          simp only [copyRecursiveSync, hcond, if_true, hmk, hrd, hrun]
        · intro r
          cases hv : FS.get fs (src ++ r) with
          | some v =>
            simp only [Option.orElse]
            cases r with
            | nil =>
              simp only [List.append_nil] at hv ⊢
              rcases K1 dest with h | ⟨r2, hne, he, _, _⟩
              · rw [hs] at hv
                cases hv
                rw [h, hfs1]; simp
              · exact absurd (by simpa using he.symm) hne
            | cons n r =>
              have hn : n ∈ FS.childNames fs1 src := by
                rw [mem_childNames, hS1]
                by_cases hr : r = []
                · subst hr; simp [hv]
                · have := wf_ancestor fs src hwf r [n] (by simp [hv]) hr
                  simp [this]
              rw [K2 n (by simpa using hn) r (by simp [hv]), hv]
          | none =>
            simp only [Option.orElse]
            rcases K1 (dest ++ r) with h | ⟨r2, _, he, hsome, _⟩
            · rw [h, hfs1]
              by_cases hr : dest ++ r = dest
              · have : r = [] := by simpa using hr
                subst this
                simp [hs] at hv
              · simp [hr]
            · have : r2 = r := (List.append_cancel_left he).symm
              subst this
              simp [hv] at hsome
        · intro q hq
          rcases K1 q with h | ⟨r2, _, he, _, _⟩
          · rw [h, hfs1]
            have : q ≠ dest := fun hc => hq ⟨[], by simp [hc]⟩
            simp [this]
          · exact absurd ⟨r2, he.symm⟩ hq

theorem exists_depth_bound (fs : FS) :
    ∃ N, ∀ q, (FS.get fs q).isSome = true → q.length < N := by
  induction fs with
  | nil => exact ⟨0, fun q h => by simp [FS.get] at h⟩
  | cons x rest ih =>
    obtain ⟨k, v⟩ := x
    obtain ⟨N, hN⟩ := ih
    refine ⟨max N (k.length + 1), fun q h => ?_⟩
    by_cases hk : k = q
    · subst hk; omega
    · simp only [FS.get, hk, if_false] at h
      have := hN q h
      omega

theorem all_of_get (fs : FS) (f : Path × Entry → Bool) (h : fs.all f = true) (q : Path)
    (hq : (FS.get fs q).isSome = true) : ∃ v, f (q, v) = true := by
  obtain ⟨v, hv⟩ := Option.isSome_iff_exists.mp hq
  exact ⟨v, (List.all_eq_true.mp h) (q, v) (mem_of_get fs q v hv)⟩

theorem wf_parent (fs : FS) (hwf : fs.wellFormed = true) (src r : Path) (n : String)
    (h : (FS.get fs (src ++ r ++ [n])).isSome = true) : FS.get fs (src ++ r) = some .dir := by
  obtain ⟨v, hv⟩ := all_of_get fs _ hwf _ h
  simpa using hv

theorem kindsAgree_dir (e : Option Entry) (h : kindsAgree (some .dir) e = true) (c : String) :
    e ≠ some (.file c) := by
  rintro rfl; simp [kindsAgree] at h

theorem kindsAgree_file (e : Option Entry) (c : String)
    (h : kindsAgree (some (.file c)) e = true) : e ≠ some .dir := by
  rintro rfl; simp [kindsAgree] at h

/-- C7: for a directory tree at `src` and a directory tree at `dest` of a
well-formed file system, the two apart and with no relative path that is a
file in one and a directory in the other, `copyRecursiveSync(src, dest)`
returns (for every recursion budget from some bound on) and yields a
destination tree in which every file of the source appears at the same
relative path with the source's contents, every directory of the source
exists, and every path of the destination that does not occur in the source
is as before; nothing outside the destination changes, nothing is deleted. -/
theorem copyRecursiveSync_merges (fs : FS) (src dest : Path)
    (hwf : fs.wellFormed = true)
    (hsrc : FS.get fs src = some .dir) (hdest : FS.get fs dest = some .dir)
    (hapart : treesApart fs src dest = true)
    (hagree : treesAgree fs src dest = true) :
    ∃ N, ∀ fuel, N ≤ fuel →
      ∃ fs2, copyRecursiveSync (fun _ => none) fuel src dest fs = some (.ok () fs2) ∧
        (∀ r c, FS.get fs (src ++ r) = some (.file c) →
          FS.get fs2 (dest ++ r) = some (.file c)) ∧
        (∀ r, FS.get fs (src ++ r) = some .dir → FS.get fs2 (dest ++ r) = some .dir) ∧
        (∀ r, FS.get fs (src ++ r) = none → FS.get fs2 (dest ++ r) = FS.get fs (dest ++ r)) ∧
        (∀ q, ¬ dest <+: q → FS.get fs2 q = FS.get fs q) := by
  obtain ⟨N, hN⟩ := exists_depth_bound fs
  refine ⟨N, fun fuel hfuel => ?_⟩
  have hni : ∀ r, (FS.get fs (src ++ r)).isSome = true → ¬ src <+: dest ++ r := by
    intro r hr hc
    obtain ⟨v, hv⟩ := all_of_get fs _ hapart _ hr
    simp only [relativeTo_append] at hv
    have := (relativeTo_isSome src (dest ++ r)).mpr hc
    cases hrel : relativeTo src (dest ++ r) with
    | none => simp [hrel] at this
    | some t => simp [hrel] at hv
  have hag : ∀ r, kindsAgree (FS.get fs (src ++ r)) (FS.get fs (dest ++ r)) = true := by
    intro r
    cases hg : FS.get fs (src ++ r) with
    | none => simp [kindsAgree]
    | some e =>
      obtain ⟨v, hv⟩ := all_of_get fs _ hagree (src ++ r) (by simp [hg])
      simp only [relativeTo_append] at hv
      rw [hg] at hv
      exact hv
  obtain ⟨fs2, hrun, hpost, hframe⟩ := copy_overlay fuel src dest fs (by simp [hsrc])
    (fun r n h => wf_parent fs hwf src r n h) hni
    (fun r h c => kindsAgree_dir _ (by rw [← h]; exact hag r) c)
    (fun r c h => kindsAgree_file _ c (by rw [← h]; exact hag r))
    (Or.inl hdest)
    (fun r h => by
      have := hN (src ++ r) h
      rw [List.length_append] at this
      omega)
  refine ⟨fs2, hrun, ?_, ?_, ?_, hframe⟩
  · intro r c h; rw [hpost, h]; rfl
  · intro r h; rw [hpost, h]; rfl
  · intro r h; rw [hpost, h]; rfl

/-- C7, an instance: a release tree merged over an application tree that
holds an older `a.js` and a file absent from the release. -/
theorem copyRecursiveSync_merges_witness :
    ∃ N, ∀ fuel, N ≤ fuel →
      ∃ fs2, copyRecursiveSync (fun _ => none) fuel ["release"] ["app"] sideBySideFS
          = some (.ok () fs2) ∧
        (∀ r c, FS.get sideBySideFS (["release"] ++ r) = some (.file c) →
          FS.get fs2 (["app"] ++ r) = some (.file c)) ∧
        (∀ r, FS.get sideBySideFS (["release"] ++ r) = some .dir →
          FS.get fs2 (["app"] ++ r) = some .dir) ∧
        (∀ r, FS.get sideBySideFS (["release"] ++ r) = none →
          FS.get fs2 (["app"] ++ r) = FS.get sideBySideFS (["app"] ++ r)) ∧
        (∀ q, ¬ ["app"] <+: q → FS.get fs2 q = FS.get sideBySideFS q) :=
  copyRecursiveSync_merges sideBySideFS ["release"] ["app"]
    (by decide) (by decide) (by decide) (by decide) (by decide)

/-! ## What the writes of `update` preserve -/

theorem isFile_iff (fs : FS) (p : Path) : FS.isFile fs p = true ↔ ∃ c, FS.get fs p = some (.file c) := by
  unfold FS.isFile
  cases h : FS.get fs p with
  | none => simp
  | some e => cases e <;> simp

theorem isFile_set_file (fs : FS) (p q : Path) (c : String) (h : FS.isFile fs p = true) :
    FS.isFile (FS.set fs q (.file c)) p = true := by
  rw [isFile_iff] at h ⊢
  rw [get_set]
  by_cases hq : p = q
  · exact ⟨c, by simp [hq]⟩
  · simpa [hq] using h

theorem isFile_set_absent (fs : FS) (p q : Path) (e : Entry) (h : FS.isFile fs p = true)
    (hq : existsSync fs q = false) : FS.isFile (FS.set fs q e) p = true := by
  rw [isFile_iff] at h ⊢
  obtain ⟨c, hc⟩ := h
  rw [get_set]
  have : p ≠ q := by
    rintro rfl
    simp [existsSync, hc] at hq
  exact ⟨c, by simp [this, hc]⟩

theorem mkdirSync_isFile (fault : Fault) (fs : FS) (q p : Path) (h : FS.isFile fs p = true) :
    FS.isFile (mkdirSync fault fs q).fs p = true := by
  unfold mkdirSync
  by_cases he : existsSync fs q = true
  · simp [he, Outcome.fs, h]
  · by_cases hp : (!FS.parentIsDir fs q) = true
    · simp [he, hp, Outcome.fs, h]
    · cases hf : fault q with
      | some e => simp [he, hp, hf, Outcome.fs, h]
      | none =>
        simp only [he, hp, hf, if_false, Outcome.fs]
        exact isFile_set_absent fs p q _ h (by simpa using he)

theorem copyFileSync_isFile (fault : Fault) (fs : FS) (a b p : Path)
    (h : FS.isFile fs p = true) : FS.isFile (copyFileSync fault fs a b).fs p = true := by
  unfold copyFileSync
  cases hg : FS.get fs a with
  | none => exact h
  | some e =>
    cases e with
    | dir => exact h
    | file c =>
      by_cases hd : isDirectory fs b = true
      · simp [hd, Outcome.fs, h]
      · by_cases hp : (!FS.parentIsDir fs b) = true
        · simp [hd, hp, Outcome.fs, h]
        · cases hf : fault b with
          | some e => simp [hd, hp, hf, Outcome.fs, h]
          | none =>
            simp only [hd, hp, hf, if_false, Outcome.fs]
            exact isFile_set_file fs p b _ h

theorem makeDir_isFile (fault : Fault) (p : Path) :
    ∀ (names : List String) (cur : Path) (fs : FS), FS.isFile fs p = true →
      FS.isFile (makeDir fault names cur fs).fs p = true := by
  intro names
  induction names with
  | nil => intro cur fs h; exact h
  | cons n rest ih =>
    intro cur fs h
    unfold makeDir
    split
    · exact h
    · exact ih _ _ h
    · have hm := mkdirSync_isFile fault fs (cur ++ [n]) p h
      split
      · rename_i e fs1 heq
        rw [heq] at hm; exact hm
      · rename_i u fs1 heq
        rw [heq] at hm
        exact ih _ _ hm

theorem writeTail_isFile (fault : Fault) (fs1 : FS) (b p : Path) (c : String)
    (hm : FS.isFile fs1 p = true) :
    FS.isFile
      (if !FS.parentIsDir fs1 b then Outcome.thrown (FS.parentError fs1 b) fs1
       else
         match fault b with
         | some e => Outcome.thrown e fs1
         | none => Outcome.ok () (FS.set fs1 b (.file c))).fs p = true := by
  by_cases hp : (!FS.parentIsDir fs1 b) = true
  · simp [hp, Outcome.fs, hm]
  · cases hf : fault b with
    | some e => simp [hp, Outcome.fs, hm]
    | none =>
      simp only [hp, if_false, Outcome.fs]
      exact isFile_set_file fs1 p b _ hm

theorem writeFileTo_isFile (fault : Fault) (fs : FS) (b p : Path) (c : String)
    (h : FS.isFile fs p = true) : FS.isFile (writeFileTo fault fs b c).fs p = true := by
  unfold writeFileTo
  by_cases hd : isDirectory fs b = true
  · simp [hd, Outcome.fs, h]
  · simp only [hd, if_false]
    by_cases hex : (!existsSync fs b.dropLast) = true
    · simp only [hex, if_true]
      have hm := makeDir_isFile fault p b.dropLast [] fs h
      cases hmk : makeDir fault b.dropLast [] fs with
      | thrown e fs1 =>
        rw [hmk] at hm
        exact hm
      | ok u fs1 =>
        rw [hmk] at hm
        exact writeTail_isFile fault fs1 b p c hm
    · simp only [hex, if_false]
      exact writeTail_isFile fault fs b p c h

theorem extractAllTo_isFile (fault : Fault) (target p : Path) :
    ∀ (zip : Archive) (fs : FS), FS.isFile fs p = true →
      FS.isFile (extractAllTo fault target zip fs).fs p = true := by
  intro zip
  induction zip with
  | nil => intro fs h; exact h
  | cons x rest ih =>
    intro fs h
    obtain ⟨rel, e⟩ := x
    cases e with
    | dir =>
      unfold extractAllTo
      have hm := makeDir_isFile fault p (target ++ rel) [] fs h
      split
      · rename_i e fs1 heq
        rw [heq] at hm; exact hm
      · rename_i u fs1 heq
        rw [heq] at hm
        exact ih _ hm
    | file c =>
      unfold extractAllTo
      have hw := writeFileTo_isFile fault fs (target ++ rel) p c h
      split
      · rename_i e fs1 heq
        rw [heq] at hw; exact hw
      · rename_i u fs1 heq
        rw [heq] at hw
        exact ih _ hw

theorem forEachName_isFile (f : String → FS → Option (Outcome Unit)) (p : Path)
    (hf : ∀ n g out, f n g = some out → FS.isFile g p = true → FS.isFile out.fs p = true) :
    ∀ (names : List String) (fs : FS) (out : Outcome Unit),
      forEachName f names fs = some out → FS.isFile fs p = true →
      FS.isFile out.fs p = true := by
  intro names
  induction names with
  | nil =>
    intro fs out h hp
    simp only [forEachName, Option.some.injEq] at h
    subst h; exact hp
  | cons n rest ih =>
    intro fs out h hp
    unfold forEachName at h
    cases hc : f n fs with
    | none => rw [hc] at h; cases h
    | some o =>
      have := hf n fs o hc hp
      rw [hc] at h
      cases o with
      | thrown e fs1 =>
        simp only [Option.some.injEq] at h
        subst h; exact this
      | ok u fs1 => exact ih fs1 out h this

theorem copyRecursiveSync_isFile (fault : Fault) (p : Path) :
    ∀ (fuel : Nat) (src dest : Path) (fs : FS) (out : Outcome Unit),
      copyRecursiveSync fault fuel src dest fs = some out → FS.isFile fs p = true →
      FS.isFile out.fs p = true := by
  intro fuel
  induction fuel with
  | zero => intro src dest fs out h; simp [copyRecursiveSync] at h
  | succ fuel ih =>
    intro src dest fs out h hp
    unfold copyRecursiveSync at h
    simp only at h
    split at h
    · have hm : FS.isFile
          (if !existsSync fs dest then mkdirSync fault fs dest else Outcome.ok () fs).fs p = true := by
        split
        · exact mkdirSync_isFile fault fs dest p hp
        · exact hp
      split at h
      · rename_i e fs1 heq
        rw [heq] at hm
        simp only [Option.some.injEq] at h
        subst h; exact hm
      · rename_i u fs1 heq
        rw [heq] at hm
        have hr : (readdirSync fs1 src).fs = fs1 := by
          unfold readdirSync; split <;> rfl
        split at h
        · rename_i e fs2 heq2
          simp only [Option.some.injEq] at h
          subst h
          rw [heq2] at hr
          simp only [Outcome.fs] at hr ⊢
          rw [hr]; exact hm
        · rename_i names fs2 heq2
          rw [heq2] at hr
          simp only [Outcome.fs] at hr
          subst hr
          exact forEachName_isFile _ p (fun n g o ho hg => ih _ _ g o ho hg) names _ out h hm
    · simp only [Option.some.injEq] at h
      subst h
      exact copyFileSync_isFile fault fs src dest p hp

theorem createWriteStream_eq (fs fs1 : FS) (dest : Path) (h : createWriteStream fs dest = some fs1) :
    fs1 = FS.set fs dest (.file "") := by
  unfold createWriteStream at h
  split at h
  · cases h
  · simp only [Option.some.injEq] at h
    exact h.symm

theorem unlinkSync_ok (fs fs2 : FS) (p : Path) (u : Unit)
    (h : unlinkSync fs p = .ok u fs2) : fs2 = FS.erase fs p := by
  unfold unlinkSync at h
  split at h
  · simp only [Outcome.ok.injEq] at h
    exact h.2.symm
  · cases h
  · cases h

theorem downloadFile_dest (server : Server) (opened : Schedule) :
    ∀ (fuel k : Nat) (url : Option String) (dest : Path) (fs : FS) (d : Download),
      downloadFile server opened fuel k url dest fs = some d →
      (FS.get fs dest ≠ some .dir → FS.get d.outcome.fs dest ≠ some .dir) ∧
        (∀ u fs1, d.outcome = .ok u fs1 →
          FS.isFile fs1 dest = true ∧ d.openPending = false) := by
  intro fuel
  induction fuel with
  | zero => intro k url dest fs d h; simp [downloadFile] at h
  | succ fuel ih =>
    intro k url dest fs d h
    unfold downloadFile at h
    cases hc : createWriteStream fs dest with
    | none =>
      simp only [hc] at h
      cases hr : server k url with
      | invalid e =>
        simp only [hr, Option.some.injEq] at h
        subst h
        exact ⟨fun hnd => hnd, fun u2 fs2 he => by cases he⟩
      | status code location body => simp [hr] at h
      | error e => simp [hr] at h
    | some created =>
      have hfs1 := createWriteStream_eq fs created dest hc
      subst hfs1
      obtain ⟨hnd0, _, _⟩ := createWriteStream_some fs dest (by rw [hc]; simp)
      have hnd : FS.get fs dest ≠ some .dir := by
        simpa [isDirectory] using hnd0
      have hseen : FS.get (if opened k = true then FS.set fs dest (.file "") else fs) dest
          ≠ some .dir := by
        by_cases ho : opened k = true
        · simp [ho, get_set]
        · simp [ho, hnd]
      simp only [hc] at h
      cases hr : server k url with
      | invalid e =>
        simp only [hr, Option.some.injEq] at h
        subst h
        exact ⟨fun _ => hseen, fun u2 fs2 he => by cases he⟩
      | status code location body =>
        simp only [hr] at h
        by_cases h1 : code = 301 ∨ code = 302
        · simp only [h1, if_true] at h
          cases hu : unlinkSync (if opened k = true then FS.set fs dest (.file "") else fs)
              dest with
          | thrown e2 f => simp [hu] at h
          | ok u f =>
            have := unlinkSync_ok _ _ _ _ hu
            subst this
            simp only [hu] at h
            obtain ⟨g1, g2⟩ := ih _ _ _ _ _ h
            refine ⟨fun _ => g1 ?_, g2⟩
            by_cases ho : opened k = true
            · simp [ho, get_erase]
            · simp [ho, get_set]
        · simp only [h1, if_false] at h
          by_cases h2 : code = 200
          · simp only [h2, ne_eq, not_true_eq_false, if_false, Option.some.injEq] at h
            subst h
            refine ⟨fun _ => by simp [Outcome.fs, get_set], ?_⟩
            intro u2 fs2 he
            cases he
            exact ⟨(isFile_iff _ _).mpr ⟨body, by simp [get_set]⟩, rfl⟩
          · simp only [ne_eq, h2, not_false_eq_true, if_true] at h
            cases hu : unlinkSync (if opened k = true then FS.set fs dest (.file "") else fs)
                dest with
            | thrown e2 f => simp [hu] at h
            | ok u f =>
              have := unlinkSync_ok _ _ _ _ hu
              subst this
              simp only [hu, Option.some.injEq] at h
              subst h
              exact ⟨fun _ => by simp [Outcome.fs, get_erase], fun u2 fs2 he => by cases he⟩
      | error e =>
        simp only [hr] at h
        by_cases hex : existsSync (if opened k = true then FS.set fs dest (.file "") else fs)
            dest = true
        · simp only [hex, if_true] at h
          cases hu : unlinkSync (if opened k = true then FS.set fs dest (.file "") else fs)
              dest with
          | thrown e2 f => simp [hu] at h
          | ok u f =>
            have := unlinkSync_ok _ _ _ _ hu
            subst this
            simp only [hu, Option.some.injEq] at h
            subst h
            exact ⟨fun _ => by simp [Outcome.fs, get_erase], fun u2 fs2 he => by cases he⟩
        · simp only [hex, Bool.false_eq_true, if_false, Option.some.injEq] at h
          subst h
          exact ⟨fun _ => hseen, fun u2 fs2 he => by cases he⟩

/-- The `catch` block on a file system where the staging archive is not a
directory: both staging paths end up absent and the original error is rethrown. -/
theorem cleanupOnFail_spec (env : Env) (e : Err) (fs : FS)
    (h : FS.get fs env.tempZip ≠ some .dir) :
    ∃ fs2, cleanupOnFail env e fs = .thrown e fs2 ∧
      FS.get fs2 env.tempZip = none ∧ FS.get fs2 env.tempDir = none ∧
      ∀ q, q ≠ env.tempZip → ¬ env.tempDir <+: q → FS.get fs2 q = FS.get fs q := by
  have step1 : ∃ fs1, (if existsSync fs env.tempZip then unlinkSync fs env.tempZip
        else Outcome.ok () fs) = .ok () fs1 ∧
      ∀ q, FS.get fs1 q = if q = env.tempZip then none else FS.get fs q := by
    cases hg : FS.get fs env.tempZip with
    | none =>
      refine ⟨fs, by simp [existsSync, hg], ?_⟩
      intro q
      by_cases hq : q = env.tempZip
      · subst hq; simp [hg]
      · simp [hq]
    | some en =>
      cases en with
      | dir => exact absurd hg h
      | file c =>
        exact ⟨FS.erase fs env.tempZip, by simp [existsSync, unlinkSync, hg],
          fun q => get_erase fs _ q⟩
  obtain ⟨fs1, h1, g1⟩ := step1
  by_cases hex : existsSync fs1 env.tempDir = true
  · refine ⟨FS.removeTree fs1 env.tempDir, ?_, ?_, ?_, ?_⟩
    · simp [cleanupOnFail, h1, hex, rmSync]
    · rw [get_removeTree, g1]; simp
    · rw [get_removeTree]; simp
    · intro q hq hp
      rw [get_removeTree, g1]; simp [hq, hp]
  · refine ⟨fs1, ?_, ?_, ?_, ?_⟩
    · simp [cleanupOnFail, h1, hex]
    · rw [g1]; simp
    · simpa [existsSync] using hex
    · intro q hq _
      rw [g1]; simp [hq]

/-- The clean-up of step 4 on a file system where the staging archive is a file. -/
theorem cleanup_step4 (env : Env) (fs : FS) (h : FS.isFile fs env.tempZip = true) :
    ∃ fs1, unlinkSync fs env.tempZip = .ok () fs1 ∧
      rmSync fs1 env.tempDir = .ok () (FS.removeTree fs1 env.tempDir) ∧
      ∀ q, FS.get (FS.removeTree fs1 env.tempDir) q
        = if q = env.tempZip ∨ env.tempDir <+: q then none else FS.get fs q := by
  obtain ⟨c, hc⟩ := (isFile_iff fs _).mp h
  refine ⟨FS.erase fs env.tempZip, by simp [unlinkSync, hc], rfl, ?_⟩
  intro q
  rw [get_removeTree, get_erase]
  by_cases hp : env.tempDir <+: q
  · simp [hp]
  · by_cases hq : q = env.tempZip <;> simp [hp, hq]

theorem isFile_not_dir (fs : FS) (p : Path) (h : FS.isFile fs p = true) :
    FS.get fs p ≠ some .dir := by
  obtain ⟨c, hc⟩ := (isFile_iff fs p).mp h
  rw [hc]; simp

/-! ## `update` -/

theorem readdirSync_fs (fs : FS) (p : Path) : (readdirSync fs p).fs = fs := by
  unfold readdirSync; split <;> rfl

theorem installStages_outcome (env : Env) (fuel : Nat) (fs : FS) (out : Outcome Unit)
    (hz : FS.get fs env.tempZip ≠ some .dir)
    (h : installStages env fuel fs = some out) :
    (∀ u fs1, out = .ok u fs1 →
      FS.get fs1 env.tempZip = none ∧ FS.get fs1 env.tempDir = none) ∧
    (∀ e fs1, out = .thrown e fs1 → FS.get fs1 env.tempZip ≠ some .dir) := by
  unfold installStages at h
  cases hd : downloadFile env.server env.opened fuel 0 (some updateUrl) env.tempZip fs with
  | none => simp [hd] at h
  | some d =>
    obtain ⟨hnd, hfile⟩ := downloadFile_dest env.server env.opened fuel 0 _ _ fs d hd
    replace hnd := hnd hz
    simp only [hd] at h
    cases ho : d.outcome with
    | thrown e fs1 =>
      rw [ho] at hnd
      simp only [ho, Option.some.injEq] at h
      subst h
      exact ⟨fun u f he => (by cases he), fun e2 f he => by cases he; exact hnd⟩
    | ok u fs1 =>
      have hP := (hfile u fs1 ho).1
      obtain ⟨bytes, hb⟩ := (isFile_iff fs1 _).mp hP
      simp only [ho, hb] at h
      cases hz : env.readZip bytes with
      | error e =>
        simp only [hz, Option.some.injEq] at h
        subst h
        exact ⟨fun u f he => (by cases he),
          fun e2 f he => by cases he; exact isFile_not_dir _ _ hP⟩
      | ok zip =>
        simp only [hz] at h
        have hx := extractAllTo_isFile env.fault env.tempDir env.tempZip zip fs1 hP
        cases hxe : extractAllTo env.fault env.tempDir zip fs1 with
        | thrown e fs2 =>
          rw [hxe] at hx
          simp only [hxe, Option.some.injEq] at h
          subst h
          exact ⟨fun u f he => (by cases he),
            fun e2 f he => by cases he; exact isFile_not_dir _ _ hx⟩
        | ok u2 fs2 =>
          rw [hxe] at hx
          simp only [Outcome.fs] at hx
          simp only [hxe] at h
          have hr := readdirSync_fs fs2 env.tempDir
          cases hrd : readdirSync fs2 env.tempDir with
          | thrown e fs3 =>
            rw [hrd] at hr
            simp only [Outcome.fs] at hr
            subst hr
            simp only [hrd, Option.some.injEq] at h
            subst h
            exact ⟨fun u f he => (by cases he),
              fun e2 f he => by cases he; exact isFile_not_dir _ _ hx⟩
          | ok names fs3 =>
            rw [hrd] at hr
            simp only [Outcome.fs] at hr
            subst hr
            simp only [hrd] at h
            cases hn : names[0]? with
            | none =>
              simp only [hn, Option.some.injEq] at h
              subst h
              exact ⟨fun u f he => (by cases he),
                fun e2 f he => by cases he; exact isFile_not_dir _ _ hx⟩
            | some root =>
              simp only [hn] at h
              cases hcp : copyRecursiveSync env.fault fuel (env.tempDir ++ [root]) env.appDir
                  fs3 with
              | none => simp [hcp] at h
              | some o4 =>
                have hc4 := copyRecursiveSync_isFile env.fault env.tempZip fuel _ _ fs3 o4 hcp hx
                cases o4 with
                | thrown e fs4 =>
                  simp only [hcp, Option.some.injEq] at h
                  subst h
                  exact ⟨fun u f he => (by cases he),
                    fun e2 f he => by cases he; exact isFile_not_dir _ _ hc4⟩
                | ok u4 fs4 =>
                  simp only [Outcome.fs] at hc4
                  obtain ⟨fs5, hu, hrm, hget⟩ := cleanup_step4 env fs4 hc4
                  simp only [hcp, hu, hrm, Option.some.injEq] at h
                  subst h
                  refine ⟨?_, fun e2 f he => by cases he⟩
                  intro u f he
                  cases he
                  exact ⟨by rw [hget]; simp, by rw [hget]; simp⟩

theorem openPending_of_ok (env : Env) (fuel : Nat) (fs fs1 : FS) (d : Download)
    (hd : downloadFile env.server env.opened fuel 0 (some updateUrl) env.tempZip fs = some d)
    (hok : d.outcome = .ok () fs1) : openPending env fuel fs = false := by
  unfold openPending
  rw [hd]
  exact ((downloadFile_dest env.server env.opened fuel 0 _ _ fs d hd).2 () fs1 hok).2

theorem update_of_stages_thrown (env : Env) (install : ExecResult) (fuel : Nat) (fs fs1 : FS)
    (e : Err) (h : installStages env fuel fs = some (.thrown e fs1)) :
    update env install fuel fs
      = some (afterPendingOpen env (openPending env fuel fs) (cleanupOnFail env e fs1)) := by
  simp [update, updateTry, h]

theorem update_of_stages_ok (env : Env) (install : ExecResult) (fuel : Nat) (fs fs1 : FS)
    (h : installStages env fuel fs = some (.ok () fs1)) :
    update env install fuel fs = some (.ok { success := true } fs1) := by
  simp [update, updateTry, h, execCommand]

theorem updateTry_stages (env : Env) (install : ExecResult) (fuel : Nat) (fs : FS)
    (o : Outcome UpdateResult) (ht : updateTry env install fuel fs = some o) :
    (∀ r fs1, o = .ok r fs1 → installStages env fuel fs = some (.ok () fs1)) ∧
      (∀ e fs1, o = .thrown e fs1 → installStages env fuel fs = some (.thrown e fs1)) := by
  unfold updateTry at ht
  cases hi : installStages env fuel fs with
  | none => simp [hi] at ht
  | some o1 =>
    rw [hi] at ht
    cases o1 with
    | thrown e2 f =>
      simp only [Option.some.injEq] at ht
      subst ht
      exact ⟨fun r f1 he => (by cases he), fun e f1 he => by cases he; rfl⟩
    | ok u f =>
      simp only [execCommand, Option.some.injEq] at ht
      subst ht
      exact ⟨fun r f1 he => (by cases he; rfl), fun e f1 he => by cases he⟩

/-- In a run that starts with no directory in the place of the staging archive
and in which no open of the staging archive is pending when the download is
rejected, `update()` leaves no staging artifact and fails with the error of its
`try` block. -/
theorem update_staging_absent (env : Env) (install : ExecResult) (fuel : Nat) (fs : FS)
    (out : Outcome UpdateResult) (hz : FS.get fs env.tempZip ≠ some .dir)
    (hp : openPending env fuel fs = false)
    (h : update env install fuel fs = some out) :
    FS.get out.fs env.tempZip = none ∧ FS.get out.fs env.tempDir = none ∧
      (∀ e fs1, updateTry env install fuel fs = some (.thrown e fs1) →
        ∃ fs2, out = .thrown e fs2) := by
  unfold update at h
  cases ht : updateTry env install fuel fs with
  | none => simp [ht] at h
  | some o =>
    obtain ⟨sok, sth⟩ := updateTry_stages env install fuel fs o ht
    cases o with
    | ok r fs1 =>
      simp only [ht, Option.some.injEq] at h
      subst h
      obtain ⟨h1, h2⟩ := (installStages_outcome env fuel fs _ hz (sok r fs1 rfl)).1 () fs1 rfl
      exact ⟨h1, h2, fun e f he => by cases he⟩
    | thrown e fs1 =>
      simp only [ht, hp, afterPendingOpen, Bool.false_eq_true, if_false,
        Option.some.injEq] at h
      have hnd := (installStages_outcome env fuel fs _ hz (sth e fs1 rfl)).2 e fs1 rfl
      obtain ⟨fs2, hc, h1, h2, _⟩ := cleanupOnFail_spec env e fs1 hnd
      rw [hc] at h
      subst h
      exact ⟨h1, h2, fun e2 f he => by cases he; exact ⟨fs2, rfl⟩⟩

/-- C4, the code at the failing input: the first request is answered with 302
and the relative `Location: /next`; `https.get` throws on it after the second
write stream was created; the `catch` block runs before that stream has opened
`update.zip`, finds nothing to unlink, and the open then creates the file:
`update()` has failed with the `TypeError` and an empty `update.zip` stays. -/
theorem update_leaves_archive_when_open_is_late :
    update lateOpenEnv failedInstall 5 bareFS
      = some (.thrown .typeError
          [([], .dir), (["app"], .dir), (["app", "update.zip"], .file "")]) := by
  decide

/-- C8 (amended): `update()` does not validate the layout of the archive. Once
the download and the extraction have succeeded: when the extraction directory
does not exist or lists no entry, `update()` fails, with `ENOENT` from
`readdirSync` or with the `TypeError` of `path.join` on an undefined name,
before any copy, leaving every path outside the staging artifacts as the
extraction left it; when it lists one or more entries, the first of the sorted
listing is the source tree whatever the others are, and if copying it succeeds
`update()` returns `{success: true}`. -/
theorem update_takes_first_entry (env : Env) (install : ExecResult) (fuel : Nat)
    (fs fs1 fs2 : FS) (d : Download) (bytes : String) (zip : Archive)
    (hd : downloadFile env.server env.opened fuel 0 (some updateUrl) env.tempZip fs = some d)
    (hok : d.outcome = .ok () fs1)
    (hb : FS.get fs1 env.tempZip = some (.file bytes))
    (hz : env.readZip bytes = .ok zip)
    (hx : extractAllTo env.fault env.tempDir zip fs1 = .ok () fs2) :
    (FS.get fs2 env.tempDir = none →
      ∃ fs3, update env install fuel fs = some (.thrown .enoent fs3) ∧
        FS.get fs3 env.tempZip = none ∧ FS.get fs3 env.tempDir = none ∧
        ∀ q, q ≠ env.tempZip → ¬ env.tempDir <+: q → FS.get fs3 q = FS.get fs2 q) ∧
    (FS.get fs2 env.tempDir = some .dir → FS.childNames fs2 env.tempDir = [] →
      ∃ fs3, update env install fuel fs = some (.thrown .typeError fs3) ∧
        FS.get fs3 env.tempZip = none ∧ FS.get fs3 env.tempDir = none ∧
        ∀ q, q ≠ env.tempZip → ¬ env.tempDir <+: q → FS.get fs3 q = FS.get fs2 q) ∧
    (∀ root rest fs4, FS.get fs2 env.tempDir = some .dir →
      FS.childNames fs2 env.tempDir = root :: rest →
      copyRecursiveSync env.fault fuel (env.tempDir ++ [root]) env.appDir fs2
        = some (.ok () fs4) →
      ∃ fs5, update env install fuel fs = some (.ok { success := true } fs5) ∧
        ∀ q, FS.get fs5 q
          = if q = env.tempZip ∨ env.tempDir <+: q then none else FS.get fs4 q) := by
  have hP1 : FS.isFile fs1 env.tempZip = true := (isFile_iff _ _).mpr ⟨bytes, hb⟩
  have hP2 : FS.isFile fs2 env.tempZip = true := by
    have := extractAllTo_isFile env.fault env.tempDir env.tempZip zip fs1 hP1
    rw [hx] at this; exact this
  have hpend := openPending_of_ok env fuel fs fs1 d hd hok
  refine ⟨?_, ?_, ?_⟩
  · intro hnone
    have hst : installStages env fuel fs = some (.thrown .enoent fs2) := by
      simp [installStages, hd, hok, hb, hz, hx, readdirSync, hnone]
    rw [update_of_stages_thrown env install fuel fs fs2 _ hst, hpend]
    obtain ⟨fs3, hc, h1, h2, h3⟩ := cleanupOnFail_spec env .enoent fs2 (isFile_not_dir _ _ hP2)
    exact ⟨fs3, by rw [hc]; rfl, h1, h2, h3⟩
  · intro hdir hempty
    have hst : installStages env fuel fs = some (.thrown .typeError fs2) := by
      simp [installStages, hd, hok, hb, hz, hx, readdirSync, hdir, hempty]
    rw [update_of_stages_thrown env install fuel fs fs2 _ hst, hpend]
    obtain ⟨fs3, hc, h1, h2, h3⟩ :=
      cleanupOnFail_spec env .typeError fs2 (isFile_not_dir _ _ hP2)
    exact ⟨fs3, by rw [hc]; rfl, h1, h2, h3⟩
  · intro root rest fs4 hdir hnames hcopy
    have hP4 : FS.isFile fs4 env.tempZip = true :=
      copyRecursiveSync_isFile env.fault env.tempZip fuel _ _ fs2 _ hcopy hP2
    obtain ⟨fs5, hu, hrm, hget⟩ := cleanup_step4 env fs4 hP4
    have hst : installStages env fuel fs
        = some (.ok () (FS.removeTree fs5 env.tempDir)) := by
      simp [installStages, hd, hok, hb, hz, hx, readdirSync, hdir, hnames, hcopy, hu, hrm]
    exact ⟨_, update_of_stages_ok env install fuel fs _ hst, hget⟩

/-- C8, an instance of the amended statement: an archive that lists `root`
and then `docs` at its top level; the sorted listing of the extraction
directory starts with `docs`, which is what is copied into the application
root, and `update()` succeeds. -/
theorem update_takes_first_entry_witness :
    ∃ fs5, update (scenarioEnv twoRootsZip (fun _ => none)) failedInstall 5 bareFS
        = some (.ok { success := true } fs5) ∧
      FS.get fs5 ["app", "readme.md"] = some (.file "r") ∧
      FS.get fs5 ["app", "new.js"] = none := by
  obtain ⟨fs5, h1, h2⟩ :=
    (update_takes_first_entry (scenarioEnv twoRootsZip (fun _ => none)) failedInstall 5
      bareFS _ _ _ "zipbytes" twoRootsZip rfl rfl rfl rfl rfl).2.2 "docs" ["root"] _ rfl rfl rfl
  refine ⟨fs5, h1, ?_, ?_⟩
  · rw [h2]; decide
  · rw [h2]; decide

/-- C8 as stated fails: for an archive with two top-level entries, `root` and
`docs`, `update()` raises no layout error; it copies the first entry of the
sorted listing, `docs`, into the application root and returns
`{success: true}`. -/
theorem update_two_top_level_entries_counterexample :
    update (scenarioEnv twoRootsZip (fun _ => none)) { error := none, stdout := "", stderr := "" }
        5 bareFS
      = some (.ok { success := true }
          [([], .dir), (["app"], .dir), (["app", "readme.md"], .file "r")]) := by
  decide

/-- C9: whatever the dependency install command ends with (zero or non-zero
exit status, any output), `execCommand` resolves with the command's stdout and
never rejects; so whenever the download, the extraction, the copy and the
staging clean-up all succeed, `update()` returns `{success: true}`. -/
theorem update_succeeds_whatever_install (env : Env) (install : ExecResult) (fuel : Nat)
    (fs fs1 : FS) (h : installStages env fuel fs = some (.ok () fs1)) :
    (execCommand install).2 = .ok install.stdout ∧
      update env install fuel fs = some (.ok { success := true } fs1) :=
  ⟨rfl, update_of_stages_ok env install fuel fs fs1 h⟩

/-- C9, an instance: the install command exits with status 1 and `update()`
still returns `{success: true}`. -/
theorem update_succeeds_whatever_install_witness :
    ∃ fs1, installStages (scenarioEnv releaseZip (fun _ => none)) 5 bareFS = some (.ok () fs1) ∧
      (execCommand failedInstall).2 = .ok "" ∧
      update (scenarioEnv releaseZip (fun _ => none)) failedInstall 5 bareFS
        = some (.ok { success := true } fs1) :=
  ⟨_, rfl, update_succeeds_whatever_install (scenarioEnv releaseZip (fun _ => none))
    failedInstall 5 bareFS _ rfl⟩

end Updater
